import Mathlib

/-!
Verification of the automata library (`src/automata.py`): the data model,
the word simulator `process`, the loader/validator `load_automata`, and the
subset-construction converter `convert_to_dfa`.

Python dictionaries are modelled as insertion-ordered association lists with
unique keys; Python sets as duplicate-free lists where membership is all that
matters.  Python strings are Lean `String`s.  A value stored in a transition
table is either a list of state names (as built by `load_automata`) or a
single state-name string (as built by `convert_to_dfa`); the sum type `Dest`
captures both shapes, and indexing/iteration on it follows Python semantics
(indexing a string yields its first character as a one-character string,
iterating a string yields its characters as one-character strings).
-/

namespace Automata2024

/-- Association list with `String` keys: the model of a Python `dict`
(insertion order, unique keys). -/
abbrev SMap (β : Type) := List (String × β)

/-- `m[k]` lookup: first (= unique) binding of `k`. -/
def alget {β : Type} : SMap β → String → Option β
  | [], _ => none
  | (k', v) :: t, k => if k' = k then some v else alget t k

/-- `m[k] = v` assignment: update in place if the key exists, else append,
exactly as a Python `dict` assignment behaves with respect to iteration
order. -/
def alset {β : Type} : SMap β → String → β → SMap β
  | [], k, v => [(k, v)]
  | (k', v') :: t, k, v =>
    if k' = k then (k', v) :: t else (k', v') :: alset t k v

/-- The keys of the dict, in iteration order. -/
def alkeys {β : Type} (m : SMap β) : List String := m.map Prod.fst

/-- `list(m.values())`, in iteration order. -/
def alvalues {β : Type} (m : SMap β) : List β := m.map Prod.snd

/-- Python `set.add`: insert if absent (membership is all that matters). -/
def insertSet (s : List String) (x : String) : List String :=
  if x ∈ s then s else x :: s

/-- A value of a transition table: either an ordered list of destination
state names (loader shape) or a single state-name string (converter shape). -/
inductive Dest where
  | lst : List String → Dest
  | str : String → Dest
  deriving DecidableEq, Repr

/-- Python iteration over a transition value (`set.update(v)` / `for x in v`):
a list yields its elements, a string yields its characters as one-character
strings. -/
def destIter : Dest → List String
  | .lst l => l
  | .str s => s.data.map (fun c => String.mk [c])

/-- Python `v[0]`: first element of a list, or the first character of a
string as a one-character string; `none` models the `IndexError` raised on an
empty list or empty string. -/
def destFirst : Dest → Option String
  | .lst l => l.head?
  | .str s => s.data.head?.map (fun c => String.mk [c])

/-- The destination states a transition value denotes: the listed states, or
the single named state. -/
def destTargets : Dest → List String
  | .lst l => l
  | .str s => [s]

/-- The automaton record returned by `load_automata` / `convert_to_dfa`. -/
structure Automata where
  alphabet : List String
  states : List String
  final_states : List String
  initial_state : String
  transitions : SMap (SMap Dest)
  deriving DecidableEq, Repr

/-- The three simulation outcomes; constructors carry the Python result
strings "ACEITA", "REJEITA", "INVALIDA". -/
inductive Outcome where
  | ACEITA | REJEITA | INVALIDA
  deriving DecidableEq, Repr

/-! ## The simulator `process` (src/automata.py lines 77–106) -/

/-- Body of the per-word loop of `process`, with the running state as an
accumulator.  `none` models an exception (`v[0]` on an empty sequence);
otherwise the outcome follows the source: an out-of-alphabet symbol is
`INVALIDA` at once, a missing transition is `REJEITA` at once, otherwise the
state becomes element `[0]` of the stored value, and a fully consumed word is
`ACEITA` iff the final state is a final state. -/
def processFrom (a : Automata) : String → List String → Option Outcome
  | current, [] =>
    some (if current ∈ a.final_states then .ACEITA else .REJEITA)
  | current, symbol :: rest =>
    if symbol ∈ a.alphabet then
      match alget a.transitions current with
      | some row =>
        match alget row symbol with
        | some d =>
          match destFirst d with
          | some next => processFrom a next rest
          | none => none
        | none => some .REJEITA
      | none => some .REJEITA
    else some .INVALIDA

/-- Classification of one word, starting from `initial_state`. -/
def processOne (a : Automata) (word : List String) : Option Outcome :=
  processFrom a a.initial_state word

/-- `process(automata, words)`: one result per word, in order. -/
def process (a : Automata) (words : List (List String)) : List (Option Outcome) :=
  words.map (processOne a)

/-! ## The loader/validator `load_automata` (src/automata.py lines 33–75)

The file-reading boundary is out of scope: the function below receives the
already-split token lists of the first four lines and the token lists of the
remaining lines, exactly the data the Python code has after its `split()`
calls, and performs the same dict-building and the same validation checks in
the same order, producing the same error strings. -/

def fmtMsg : String := "Formato de transição inválido."
def initMsg : String := "Estado inicial não está presente no conjunto de estados."
def finalMsg : String := "Estado final não está presente no conjunto de estados."
def originMsg : String := "Transição parte de estado que não está no conjunto de estados."
def symbolMsg : String := "Transição utiliza símbolo inválido."
def destMsg : String := "Transição leva a estado que não está no conjunto de estados."

/-- One step of the transition-dict build: `transitions[origin][symbol]`
gets `destination` appended (creating the inner dict / list as needed). -/
def addTransition (tr : SMap (SMap Dest)) (origin symbol destination : String) :
    SMap (SMap Dest) :=
  let row := (alget tr origin).getD []
  let ds : List String :=
    match alget row symbol with
    | some (.lst l) => l
    | some (.str _) => []
    | none => []
  alset tr origin (alset row symbol (.lst (ds ++ [destination])))

/-- The `for line in file` loop: each line must split into exactly three
tokens, else `ValueError(fmtMsg)`. -/
def buildTransitions : List (List String) → SMap (SMap Dest) →
    Except String (SMap (SMap Dest))
  | [], tr => .ok tr
  | parts :: rest, tr =>
    match parts with
    | [origin, symbol, destination] =>
      buildTransitions rest (addTransition tr origin symbol destination)
    | _ => .error fmtMsg

/-- `for final_state in final_states: ...` check. -/
def checkFinals (states : List String) : List String → Except String Unit
  | [] => .ok ()
  | f :: rest =>
    if f ∈ states then checkFinals states rest else .error finalMsg

/-- `for destination in transitions[origin][symbol]: ...` check.  The loader
only ever stores `.lst` values, whose iteration is their element list. -/
def checkDests (states : List String) : List String → Except String Unit
  | [] => .ok ()
  | d :: rest =>
    if d ∈ states then checkDests states rest else .error destMsg

/-- `for symbol in transitions[origin]: ...` check. -/
def checkSymbols (alphabet states : List String) :
    List (String × Dest) → Except String Unit
  | [] => .ok ()
  | (symbol, d) :: rest =>
    if symbol ∈ alphabet then
      match checkDests states (destIter d) with
      | .ok _ => checkSymbols alphabet states rest
      | .error e => .error e
    else .error symbolMsg

/-- `for origin in transitions: ...` check, in dict iteration order. -/
def checkOrigins (alphabet states : List String) :
    SMap (SMap Dest) → Except String Unit
  | [] => .ok ()
  | (origin, row) :: rest =>
    if origin ∈ states then
      match checkSymbols alphabet states row with
      | .ok _ => checkOrigins alphabet states rest
      | .error e => .error e
    else .error originMsg

/-- The body of `load_automata` after the four header lines are split:
build the transition dict, run the four structural checks in source order,
and either return the automaton record or re-raise the first `ValueError`
with the prefix the source adds. -/
def load_automata (alphabet states final_states : List String)
    (initial_state : String) (lines : List (List String)) :
    Except String Automata :=
  let core : Except String Automata :=
    match buildTransitions lines [] with
    | .error e => .error e
    | .ok transitions =>
      if initial_state ∈ states then
        match checkFinals states final_states with
        | .error e => .error e
        | .ok _ =>
          match checkOrigins alphabet states transitions with
          | .error e => .error e
          | .ok _ =>
            .ok { alphabet := alphabet, states := states,
                  final_states := final_states,
                  initial_state := initial_state,
                  transitions := transitions }
      else .error initMsg
  match core with
  | .ok a => .ok a
  | .error e => .error ("Erro ao ler o arquivo: " ++ e)

/-! ## The converter `convert_to_dfa` (src/automata.py lines 109–156)

The Python `while states_to_process:` loop pops from the end of the list;
the worklist is modelled with its head as the top of the stack (Python's
`append x` is `x :: wl`, `pop()` takes the head), which preserves the exact
pop order and hence the exact minted numbering. -/

/-- Strict lexicographic comparison of code-point sequences: exactly how
Python compares two strings. -/
def charListLt : List Char → List Char → Bool
  | [], [] => false
  | [], _ :: _ => true
  | _ :: _, [] => false
  | a :: as, b :: bs =>
    if a < b then true else if b < a then false else charListLt as bs

/-- Python `a < b` on strings. -/
def strLtB (a b : String) : Bool := charListLt a.data b.data

/-- Python `a <= b` on strings. -/
def strLeB (a b : String) : Bool := strLtB a b || decide (a = b)

/-- Python `s.split(',')`: cut at every comma, keeping empty pieces. -/
def splitCommaAux : List Char → List Char → List String
  | [], acc => [String.mk acc.reverse]
  | c :: rest, acc =>
    if c = ',' then String.mk acc.reverse :: splitCommaAux rest []
    else splitCommaAux rest (c :: acc)

/-- `current.split(',')`. -/
def splitComma (s : String) : List String := splitCommaAux s.data []

/-- `sorted(states_set)`: the set is modelled by deduplication, `sorted` by
an insertion sort under Python's string order (ascending code-point
lexicographic). -/
def sortDedup (l : List String) : List String :=
  List.insertionSort (fun a b => strLeB a b = true) l.dedup

/-- The canonical key of a set of state names. -/
def sortedKey (l : List String) : String :=
  String.intercalate "," (sortDedup l)

/-- `get_state_name(states_set)`: look the canonical key up in `new_states`,
minting `q{state_counter}` for an unseen key.  Returns the name together
with the updated `new_states` dict and counter. -/
def getStateName (ns : SMap String) (counter : Nat) (statesSet : List String) :
    String × SMap String × Nat :=
  let name := sortedKey statesSet
  match alget ns name with
  | some v => (v, ns, counter)
  | none =>
    let minted := "q" ++ toString counter
    (minted, alset ns name minted, counter + 1)

/-- The union `next_states` gathered for one symbol: destinations reachable
from the members via that symbol, in the source's guarded double lookup
(`state in transitions and symbol in transitions[state]`).  Only membership
(and through `sortedKey` the underlying set) of the result is ever used, so
a concatenation list faithfully models the Python set. -/
def unionDests (a : Automata) (members : List String) (symbol : String) :
    List String :=
  members.foldl (fun acc state =>
    match alget a.transitions state with
    | some row =>
      match alget row symbol with
      | some d => acc ++ destIter d
      | none => acc
    | none => acc) []

/-- The mutable state of the conversion loop. -/
structure ConvSt where
  ns : SMap String
  counter : Nat
  dtr : SMap (SMap String)
  dfin : List String
  wl : List String
  processed : List String
  init_name : String
  deriving DecidableEq, Repr

/-- The `for symbol in automata["alphabet"]` loop of one worklist iteration:
threads the row being built for `current`, the `new_states` dict, the
counter and the worklist; a non-empty union records `row[symbol] = name` and
pushes the name when it is not yet processed. -/
def symLoop (a : Automata) (members processed : List String) :
    List String → SMap String → SMap String → Nat → List String →
    SMap String × SMap String × Nat × List String
  | [], row, ns, counter, wl => (row, ns, counter, wl)
  | symbol :: syms, row, ns, counter, wl =>
    let u := unionDests a members symbol
    match u with
    | [] => symLoop a members processed syms row ns counter wl
    | _ :: _ =>
      let r := getStateName ns counter u
      let name := r.1
      let row' := alset row symbol name
      let wl' := if name ∈ processed then wl else name :: wl
      symLoop a members processed syms row' r.2.1 r.2.2 wl'

/-- One iteration of the `while` loop: pop `current`, mark it processed,
mark it final when any member of `current.split(',')` is an input final
state, rebuild its transition row over the alphabet, and push the newly
discovered names. -/
def convStep (a : Automata) (s : ConvSt) : ConvSt :=
  match s.wl with
  | [] => s
  | current :: rest =>
    let processed' := insertSet s.processed current
    let dfin' :=
      if (splitComma current).any (fun st => st ∈ a.final_states) then
        insertSet s.dfin current
      else s.dfin
    let members := splitComma current
    let r := symLoop a members processed' a.alphabet [] s.ns s.counter rest
    { ns := r.2.1, counter := r.2.2.1,
      dtr := alset s.dtr current r.1,
      dfin := dfin', wl := r.2.2.2, processed := processed',
      init_name := s.init_name }

/-- The `while states_to_process:` loop, with explicit fuel; the fuel chosen
in `convert_to_dfa` is proved sufficient below. -/
def convLoop (a : Automata) : Nat → ConvSt → ConvSt
  | 0, s => s
  | n + 1, s =>
    match s.wl with
    | [] => s
    | _ :: _ => convLoop a n (convStep a s)

/-- The state before the loop: `get_state_name([initial_state])` on the
empty dict, seeding the worklist. -/
def convInit (a : Automata) : ConvSt :=
  let r := getStateName [] 0 [a.initial_state]
  { ns := r.2.1, counter := r.2.2, dtr := [], dfin := [],
    wl := [r.1], processed := [], init_name := r.1 }

/-- Every destination name occurring anywhere in the input's transition
table (under Python iteration semantics).  Unions gathered by the loop only
ever contain these strings. -/
def allDests (a : Automata) : List String :=
  a.transitions.foldr
    (fun p acc => p.2.foldr (fun q acc2 => destIter q.2 ++ acc2) acc) []

/-- Every canonical key the loop can ever mint: the key of the seeded
singleton and the keys of the subsets of the destination pool. -/
def keyUniverse (a : Automata) : List String :=
  sortedKey [a.initial_state] ::
    (sortDedup (allDests a)).sublists.map (String.intercalate ",")

/-- Fuel for the loop, ample by the measure argument proved below:
`(bound on distinct processed names + 1) * (alphabet length + 1) + initial
worklist length`. -/
def convFuel (a : Automata) : Nat :=
  ((keyUniverse a).toFinset.card + 1) * (a.alphabet.length + 1) + 1

/-- Assemble the returned automaton record from the final loop state. -/
def convFinalize (a : Automata) (s : ConvSt) : Automata :=
  { alphabet := a.alphabet,
    states := alvalues s.ns,
    final_states := s.dfin,
    initial_state := s.init_name,
    transitions := s.dtr.map (fun p => (p.1, p.2.map (fun q => (q.1, Dest.str q.2)))) }

/-- `convert_to_dfa(automata)`. -/
def convert_to_dfa (a : Automata) : Automata :=
  convFinalize a (convLoop a (convFuel a) (convInit a))

/-- All successors of `e` (names of its non-empty per-symbol unions) are
already minted and either processed or in `pre`. -/
def succOK (a : Automata) (ns : SMap String) (processed pre : List String)
    (e : String) : Prop :=
  ∀ sym ∈ a.alphabet, unionDests a (splitComma e) sym ≠ [] →
    ∃ v, alget ns (sortedKey (unionDests a (splitComma e) sym)) = some v ∧
      (v ∈ processed ∨ v ∈ pre)

/-- Stack discipline: any processed entry still sitting in the worklist has
all its successors processed or strictly above it. -/
def StackInv (a : Automata) (s : ConvSt) : Prop :=
  ∀ pre e post, s.wl = pre ++ e :: post → e ∈ s.processed →
    succOK a s.ns s.processed pre e

/-- Plumbing invariant: the processed set is duplicate-free, every processed
or queued name is a minted value, and the canonical keys are duplicate-free
members of the finite key universe. -/
def SizeInv (a : Automata) (s : ConvSt) : Prop :=
  s.processed.Nodup ∧
  (∀ x ∈ s.processed, x ∈ alvalues s.ns) ∧
  (∀ x ∈ s.wl, x ∈ alvalues s.ns) ∧
  (alkeys s.ns).Nodup ∧
  (∀ k ∈ alkeys s.ns, k ∈ keyUniverse a)


/-- The decreasing measure of the conversion loop. -/
def convMeasure (a : Automata) (s : ConvSt) : Nat :=
  ((keyUniverse a).toFinset.card + 1 - s.processed.length) *
    (a.alphabet.length + 1) + s.wl.length

/-- Every value the loader stores is a `.lst`. -/
def allLst (tr : SMap (SMap Dest)) : Prop :=
  ∀ p ∈ tr, ∀ q ∈ p.2, ∃ l, q.2 = .lst l


/-- §3 invariants: initial state in `states`, final states in `states`,
transition origins/destinations in `states`, transition symbols in
`alphabet`. -/
def invariantsHold (a : Automata) : Prop :=
  a.initial_state ∈ a.states ∧
  (∀ f ∈ a.final_states, f ∈ a.states) ∧
  (∀ p ∈ a.transitions, p.1 ∈ a.states ∧
    ∀ q ∈ p.2, q.1 ∈ a.alphabet ∧ ∀ d ∈ destTargets q.2, d ∈ a.states)


/-- Structural loop invariant: all names the loop has stored anywhere are
minted values, and row symbols come from the alphabet. -/
def BasicInv (a : Automata) (s : ConvSt) : Prop :=
  s.init_name ∈ alvalues s.ns ∧
  (∀ x ∈ s.wl, x ∈ alvalues s.ns) ∧
  (∀ x ∈ s.dfin, x ∈ alvalues s.ns) ∧
  (∀ p ∈ s.dtr, p.1 ∈ alvalues s.ns ∧
    ∀ q ∈ p.2, q.1 ∈ a.alphabet ∧ q.2 ∈ alvalues s.ns)


/-! ## Concrete automata used in witnesses and counterexamples -/

/-- A single accepting state with no transitions. -/
def exC1 : Automata := ⟨["a"], ["s"], ["s"], "s", []⟩

/-- A one-state loop on symbol `a`. -/
def exC2 : Automata := ⟨["a"], ["s"], ["s"], "s", [("s", [("a", Dest.lst ["s"])])]⟩

/-- A genuinely non-deterministic automaton: `s -a-> {s, t}`. -/
def exC4 : Automata := ⟨["a"], ["s", "t"], [], "s", [("s", [("a", Dest.lst ["s", "t"])])]⟩

/-- Both symbols lead from the initial state to the same target. -/
def exC8 : Automata := ⟨["a", "b"], ["q0", "t"], [], "q0",
  [("q0", [("a", Dest.lst ["t"]), ("b", Dest.lst ["t"])])]⟩

/-- A one-state loop used to exercise totality. -/
def exC9 : Automata := ⟨["a"], ["s"], ["s"], "s", [("s", [("a", Dest.lst ["s"])])]⟩

/-- The converter maps this input to a DFA with transition `q0 -a-> q1`. -/
def exC10 : Automata := ⟨["a"], [], [], "s", [("q0", [("a", Dest.lst ["x"])])]⟩


/-! ## Association-list lemmas -/

theorem alkeys_cons {β : Type} (p : String × β) (t : SMap β) :
    alkeys (p :: t) = p.1 :: alkeys t := rfl

theorem alvalues_cons {β : Type} (p : String × β) (t : SMap β) :
    alvalues (p :: t) = p.2 :: alvalues t := rfl

theorem alget_eq_none {β : Type} {m : SMap β} {k : String} :
    alget m k = none ↔ k ∉ alkeys m := by
  induction m with
  | nil => simp [alget, alkeys]
  | cons p t ih =>
    obtain ⟨k', v⟩ := p
    by_cases h : k' = k
    · subst h
      simp [alget, alkeys_cons]
    · rw [alkeys_cons]
      simp only [alget, if_neg h, List.mem_cons]
      rw [ih]
      constructor
      · rintro hn (h1 | h2)
        · exact h h1.symm
        · exact hn h2
      · exact fun hn h2 => hn (Or.inr h2)

theorem alget_mem {β : Type} {m : SMap β} {k : String} {v : β}
    (h : alget m k = some v) : (k, v) ∈ m := by
  induction m with
  | nil => simp [alget] at h
  | cons p t ih =>
    obtain ⟨k', v'⟩ := p
    by_cases hk : k' = k
    · subst hk
      simp [alget] at h
      simp [h]
    · simp only [alget, if_neg hk] at h
      exact List.mem_cons_of_mem _ (ih h)

theorem mem_alvalues_of_mem {β : Type} {m : SMap β} {k : String} {v : β}
    (h : (k, v) ∈ m) : v ∈ alvalues m :=
  List.mem_map_of_mem Prod.snd h

theorem mem_alkeys_of_mem {β : Type} {m : SMap β} {k : String} {v : β}
    (h : (k, v) ∈ m) : k ∈ alkeys m :=
  List.mem_map_of_mem Prod.fst h

theorem alset_of_not_mem {β : Type} {m : SMap β} {k : String} (v : β)
    (h : k ∉ alkeys m) : alset m k v = m ++ [(k, v)] := by
  induction m with
  | nil => simp [alset]
  | cons p t ih =>
    obtain ⟨k', v'⟩ := p
    rw [alkeys_cons] at h
    simp only [List.mem_cons, not_or] at h
    have hk : ¬ k' = k := fun h' => h.1 h'.symm
    simp [alset, hk, ih h.2]

theorem alget_append_left {β : Type} {m : SMap β} {k : String} {v : β}
    (l : SMap β) (h : alget m k = some v) : alget (m ++ l) k = some v := by
  induction m with
  | nil => simp [alget] at h
  | cons p t ih =>
    obtain ⟨k', v'⟩ := p
    by_cases hk : k' = k
    · simp only [alget, if_pos hk] at h
      simp only [List.cons_append, alget, if_pos hk, h]
    · simp only [alget, if_neg hk] at h
      simp only [List.cons_append, alget, if_neg hk]
      exact ih h

theorem alget_append_self {β : Type} {m : SMap β} {k : String} (v : β)
    (h : alget m k = none) : alget (m ++ [(k, v)]) k = some v := by
  induction m with
  | nil => simp [alget]
  | cons p t ih =>
    obtain ⟨k', v'⟩ := p
    by_cases hk : k' = k
    · simp [alget, hk] at h
    · simp only [alget, if_neg hk] at h
      simp only [List.cons_append, alget, if_neg hk]
      exact ih h

theorem mem_alset {β : Type} {m : SMap β} {k : String} {v : β} {q : String × β}
    (h : q ∈ alset m k v) : q = (k, v) ∨ q ∈ m := by
  induction m with
  | nil => simpa [alset] using h
  | cons p t ih =>
    obtain ⟨k', v'⟩ := p
    by_cases hk : k' = k
    · simp only [alset, if_pos hk, List.mem_cons] at h
      rcases h with h | h
      · subst hk
        exact Or.inl h
      · exact Or.inr (List.mem_cons_of_mem _ h)
    · simp only [alset, if_neg hk, List.mem_cons] at h
      rcases h with h | h
      · subst h
        exact Or.inr (List.mem_cons_self _ _)
      · rcases ih h with h' | h'
        · exact Or.inl h'
        · exact Or.inr (List.mem_cons_of_mem _ h')

theorem alget_alset_self {β : Type} (m : SMap β) (k : String) (v : β) :
    alget (alset m k v) k = some v := by
  induction m with
  | nil => simp [alset, alget]
  | cons p t ih =>
    obtain ⟨k', v'⟩ := p
    by_cases hk : k' = k
    · simp [alset, alget, hk]
    · simp only [alset, if_neg hk, alget]
      exact ih

theorem alget_alset_ne {β : Type} (m : SMap β) {k k' : String} (v : β)
    (h : k' ≠ k) : alget (alset m k v) k' = alget m k' := by
  induction m with
  | nil =>
    have hne : ¬ k = k' := fun h' => h h'.symm
    simp [alset, alget, hne]
  | cons p t ih =>
    obtain ⟨k'', v''⟩ := p
    by_cases hk : k'' = k
    · subst hk
      have hne : ¬ k'' = k' := fun h' => h h'.symm
      simp [alset, alget, hne]
    · by_cases hk' : k'' = k'
      · subst hk'
        simp [alset, alget, hk]
      · simp only [alset, if_neg hk, alget, if_neg hk']
        exact ih

theorem alget_map {β γ : Type} (f : β → γ) (m : SMap β) (k : String) :
    alget (m.map (fun p => (p.1, f p.2))) k = (alget m k).map f := by
  induction m with
  | nil => simp [alget]
  | cons p t ih =>
    obtain ⟨k', v⟩ := p
    by_cases hk : k' = k <;> simp [alget, hk, ih]

/-! ## Canonical keys: sortedness and the finite key universe -/

theorem charListLt_irrefl : ∀ l : List Char, charListLt l l = false := by
  intro l
  induction l with
  | nil => rfl
  | cons a as ih => simp [charListLt, lt_irrefl, ih]

theorem charListLt_cases {a b : Char} {as bs : List Char} :
    charListLt (a :: as) (b :: bs) = true ↔
      a < b ∨ (a = b ∧ charListLt as bs = true) := by
  by_cases hab : a < b
  · simp [charListLt, hab]
  · by_cases hba : b < a
    · simp [charListLt, hab, hba]
      intro h
      exact absurd (h ▸ hba) hab
    · have heq : a = b := le_antisymm (not_lt.mp hba) (not_lt.mp hab)
      simp [charListLt, hab, hba, heq]

theorem charListLt_asymm : ∀ {l m : List Char},
    charListLt l m = true → charListLt m l = false := by
  intro l
  induction l with
  | nil =>
    intro m h
    cases m with
    | nil => simp [charListLt] at h
    | cons b bs => rfl
  | cons a as ih =>
    intro m h
    cases m with
    | nil => simp [charListLt] at h
    | cons b bs =>
      rcases charListLt_cases.mp h with h' | ⟨heq, htail⟩
      · have h1 : ¬ b < a := asymm h'
        have h2 : b ≠ a := ne_of_gt h'
        rw [show charListLt (b :: bs) (a :: as) =
            (if b < a then true else if a < b then false else charListLt bs as)
          from rfl]
        rw [if_neg h1, if_pos h']
      · subst heq
        rw [show charListLt (a :: bs) (a :: as) =
            (if a < a then true else if a < a then false else charListLt bs as)
          from rfl]
        rw [if_neg (lt_irrefl a), if_neg (lt_irrefl a)]
        exact ih htail

theorem charListLt_trans : ∀ {l m n : List Char},
    charListLt l m = true → charListLt m n = true → charListLt l n = true := by
  intro l
  induction l with
  | nil =>
    intro m n h1 h2
    cases m with
    | nil => simp [charListLt] at h1
    | cons b bs =>
      cases n with
      | nil => simp [charListLt] at h2
      | cons c cs => rfl
  | cons a as ih =>
    intro m n h1 h2
    cases m with
    | nil => simp [charListLt] at h1
    | cons b bs =>
      cases n with
      | nil => simp [charListLt] at h2
      | cons c cs =>
        rcases charListLt_cases.mp h1 with hab | ⟨hab, ht1⟩ <;>
          rcases charListLt_cases.mp h2 with hbc | ⟨hbc, ht2⟩
        · exact charListLt_cases.mpr (Or.inl (lt_trans hab hbc))
        · exact charListLt_cases.mpr (Or.inl (hbc ▸ hab))
        · exact charListLt_cases.mpr (Or.inl (hab ▸ hbc))
        · exact charListLt_cases.mpr (Or.inr ⟨hab.trans hbc, ih ht1 ht2⟩)

theorem charListLt_connex : ∀ l m : List Char,
    charListLt l m = true ∨ charListLt m l = true ∨ l = m := by
  intro l
  induction l with
  | nil =>
    intro m
    cases m with
    | nil => exact Or.inr (Or.inr rfl)
    | cons b bs => exact Or.inl rfl
  | cons a as ih =>
    intro m
    cases m with
    | nil => exact Or.inr (Or.inl rfl)
    | cons b bs =>
      rcases lt_trichotomy a b with h | h | h
      · exact Or.inl (charListLt_cases.mpr (Or.inl h))
      · rcases ih bs with h' | h' | h'
        · exact Or.inl (charListLt_cases.mpr (Or.inr ⟨h, h'⟩))
        · exact Or.inr (Or.inl (charListLt_cases.mpr (Or.inr ⟨h.symm, h'⟩)))
        · exact Or.inr (Or.inr (by rw [h, h']))
      · exact Or.inr (Or.inl (charListLt_cases.mpr (Or.inl h)))

theorem strLeB_total (a b : String) : strLeB a b = true ∨ strLeB b a = true := by
  unfold strLeB strLtB
  rcases charListLt_connex a.data b.data with h | h | h
  · exact Or.inl (by simp [h])
  · exact Or.inr (by simp [h])
  · exact Or.inl (by simp [String.ext h])

theorem strLeB_trans {a b c : String} (h1 : strLeB a b = true)
    (h2 : strLeB b c = true) : strLeB a c = true := by
  unfold strLeB strLtB at *
  simp only [Bool.or_eq_true, decide_eq_true_eq] at *
  rcases h1 with h1 | h1 <;> rcases h2 with h2 | h2
  · exact Or.inl (charListLt_trans h1 h2)
  · exact Or.inl (h2 ▸ h1)
  · exact Or.inl (h1 ▸ h2)
  · exact Or.inr (h1.trans h2)

theorem strLtB_of_leB_ne {a b : String} (h1 : strLeB a b = true)
    (h2 : a ≠ b) : strLtB a b = true := by
  unfold strLeB at h1
  simp only [Bool.or_eq_true, decide_eq_true_eq] at h1
  rcases h1 with h | h
  · exact h
  · exact absurd h h2

theorem strLtB_irrefl (a : String) : strLtB a a = false :=
  charListLt_irrefl a.data

theorem strLtB_asymm {a b : String} (h : strLtB a b = true) :
    strLtB b a = false :=
  charListLt_asymm h

theorem mem_sortDedup {x : String} {l : List String} :
    x ∈ sortDedup l ↔ x ∈ l := by
  unfold sortDedup
  rw [(List.perm_insertionSort _ l.dedup).mem_iff, List.mem_dedup]

theorem nodup_sortDedup (l : List String) : (sortDedup l).Nodup :=
  (List.perm_insertionSort _ l.dedup).symm.nodup (List.nodup_dedup l)

theorem pairwise_le_sortDedup (l : List String) :
    (sortDedup l).Pairwise (fun a b => strLeB a b = true) := by
  haveI : IsTotal String (fun a b => strLeB a b = true) := ⟨strLeB_total⟩
  haveI : IsTrans String (fun a b => strLeB a b = true) :=
    ⟨fun _ _ _ => strLeB_trans⟩
  exact List.sorted_insertionSort _ l.dedup

theorem pairwise_lt_sortDedup (l : List String) :
    (sortDedup l).Pairwise (fun a b => strLtB a b = true) := by
  have h1 := pairwise_le_sortDedup l
  have h2 : (sortDedup l).Pairwise (· ≠ ·) := nodup_sortDedup l
  exact (h1.and h2).imp (fun h => strLtB_of_leB_ne h.1 h.2)

/-- A sorted duplicate-free list is a sublist of any sorted duplicate-free
list containing its members. -/
theorem sublist_of_subset_of_pairwise_lt :
    ∀ {m l : List String}, l.Pairwise (fun a b => strLtB a b = true) →
      m.Pairwise (fun a b => strLtB a b = true) →
      (∀ x ∈ l, x ∈ m) → l.Sublist m := by
  intro m
  induction m with
  | nil =>
    intro l _ _ hsub
    cases l with
    | nil => exact List.Sublist.refl []
    | cons x t => exact absurd (hsub x (List.mem_cons_self x t)) (by simp)
  | cons b m' ih =>
    intro l hl hm hsub
    cases l with
    | nil => exact List.nil_sublist _
    | cons x t =>
      have hmtail : m'.Pairwise (fun a b => strLtB a b = true) := hm.tail
      by_cases hxb : x = b
      · subst hxb
        refine List.Sublist.cons₂ x (ih hl.tail hmtail ?_)
        intro y hy
        have hxy : strLtB x y = true := (List.pairwise_cons.mp hl).1 y hy
        have : y ∈ x :: m' := hsub y (List.mem_cons_of_mem x hy)
        rcases List.mem_cons.mp this with h | h
        · subst h
          rw [strLtB_irrefl y] at hxy
          exact absurd hxy (by simp)
        · exact h
      · have hx : x ∈ m' := by
          rcases List.mem_cons.mp (hsub x (List.mem_cons_self x t)) with h | h
          · exact absurd h hxb
          · exact h
        have hbx : strLtB b x = true := (List.pairwise_cons.mp hm).1 x hx
        refine List.Sublist.cons b (ih hl hmtail ?_)
        intro y hy
        rcases List.mem_cons.mp (hsub y hy) with h | h
        · subst h
          rcases List.mem_cons.mp hy with h' | h'
          · subst h'
            rw [strLtB_irrefl y] at hbx
            exact absurd hbx (by simp)
          · have hxy : strLtB x y = true := (List.pairwise_cons.mp hl).1 y h'
            rw [strLtB_asymm hbx] at hxy
            exact absurd hxy (by simp)
        · exact h

theorem mem_row_foldr {row : SMap Dest} {y : String} :
    ∀ {base : List String}, (y ∈ base ∨ ∃ q ∈ row, y ∈ destIter q.2) →
      y ∈ row.foldr (fun q acc2 => destIter q.2 ++ acc2) base := by
  induction row with
  | nil =>
    intro base h
    rcases h with h | ⟨q, hq, _⟩
    · simpa using h
    · simp at hq
  | cons q rt ih =>
    intro base h
    simp only [List.foldr_cons]
    rcases h with h | ⟨q', hq', hy⟩
    · exact List.mem_append.mpr (Or.inr (ih (Or.inl h)))
    · rcases List.mem_cons.mp hq' with h' | h'
      · subst h'
        exact List.mem_append.mpr (Or.inl hy)
      · exact List.mem_append.mpr (Or.inr (ih (Or.inr ⟨q', h', hy⟩)))

/-- A value stored anywhere in the transition table contributes all its
iterated elements to `allDests`. -/
theorem mem_allDests {a : Automata} {o : String} {row : SMap Dest}
    {s : String} {d : Dest} (h1 : (o, row) ∈ a.transitions)
    (h2 : (s, d) ∈ row) : ∀ y ∈ destIter d, y ∈ allDests a := by
  intro y hy
  unfold allDests
  revert h1
  generalize a.transitions = trs
  intro h1
  induction trs with
  | nil => simp at h1
  | cons p tr ihtr =>
    simp only [List.foldr_cons]
    rcases List.mem_cons.mp h1 with h | h
    · subst h
      exact mem_row_foldr (Or.inr ⟨(s, d), h2, hy⟩)
    · exact mem_row_foldr (Or.inl (ihtr h))

/-- Everything `unionDests` gathers comes from the destination pool of the
input automaton. -/
theorem unionDests_subset_allDests (a : Automata) (members : List String)
    (symbol : String) :
    ∀ x ∈ unionDests a members symbol, x ∈ allDests a := by
  have key : ∀ (ms : List String) (acc : List String),
      (∀ x ∈ acc, x ∈ allDests a) →
      ∀ x ∈ ms.foldl (fun acc state =>
        match alget a.transitions state with
        | some row =>
          match alget row symbol with
          | some d => acc ++ destIter d
          | none => acc
        | none => acc) acc, x ∈ allDests a := by
    intro ms
    induction ms with
    | nil => intro acc hacc x hx; exact hacc x hx
    | cons s t ih =>
      intro acc hacc x hx
      simp only [List.foldl_cons] at hx
      refine ih _ ?_ x hx
      intro y hy
      cases hrow : alget a.transitions s with
      | none => simp only [hrow] at hy; exact hacc y hy
      | some row =>
        simp only [hrow] at hy
        cases hd : alget row symbol with
        | none => simp only [hd] at hy; exact hacc y hy
        | some d =>
          simp only [hd] at hy
          rcases List.mem_append.mp hy with h | h
          · exact hacc y h
          · exact mem_allDests (alget_mem hrow) (alget_mem hd) y h
  intro x hx
  exact key members [] (by simp) x hx

/-- The canonical key of any gathered union lies in the finite key
universe of the input automaton. -/
theorem sortedKey_unionDests_mem_keyUniverse (a : Automata)
    (members : List String) (symbol : String) :
    sortedKey (unionDests a members symbol) ∈ keyUniverse a := by
  unfold keyUniverse sortedKey
  refine List.mem_cons_of_mem _ (List.mem_map_of_mem _ ?_)
  rw [List.mem_sublists]
  refine sublist_of_subset_of_pairwise_lt
    (pairwise_lt_sortDedup _) (pairwise_lt_sortDedup _) ?_
  intro x hx
  rw [mem_sortDedup] at hx
  rw [mem_sortDedup]
  exact unionDests_subset_allDests a members symbol x hx

/-! ## Facts about `getStateName` -/

theorem getStateName_lookup (ns : SMap String) (counter : Nat) (l : List String) :
    alget (getStateName ns counter l).2.1 (sortedKey l) =
      some (getStateName ns counter l).1 := by
  unfold getStateName
  cases h : alget ns (sortedKey l) with
  | some v => simp [h]
  | none =>
    simp only [h]
    rw [alset_of_not_mem _ (alget_eq_none.mp h)]
    exact alget_append_self _ h

theorem getStateName_mono {ns : SMap String} {counter : Nat} {l : List String}
    {k v : String} (h : alget ns k = some v) :
    alget (getStateName ns counter l).2.1 k = some v := by
  unfold getStateName
  cases h' : alget ns (sortedKey l) with
  | some w => simpa [h'] using h
  | none =>
    simp only [h']
    rw [alset_of_not_mem _ (alget_eq_none.mp h')]
    exact alget_append_left _ h

theorem getStateName_values_mono {ns : SMap String} {counter : Nat}
    {l : List String} {v : String} (h : v ∈ alvalues ns) :
    v ∈ alvalues (getStateName ns counter l).2.1 := by
  unfold getStateName
  cases h' : alget ns (sortedKey l) with
  | some w => simpa [h'] using h
  | none =>
    simp only [h']
    rw [alset_of_not_mem _ (alget_eq_none.mp h')]
    unfold alvalues
    rw [List.map_append]
    exact List.mem_append.mpr (Or.inl h)

theorem getStateName_name_mem_values (ns : SMap String) (counter : Nat)
    (l : List String) :
    (getStateName ns counter l).1 ∈ alvalues (getStateName ns counter l).2.1 :=
  mem_alvalues_of_mem (alget_mem (getStateName_lookup ns counter l))

theorem getStateName_keys (ns : SMap String) (counter : Nat) (l : List String) :
    alkeys (getStateName ns counter l).2.1 = alkeys ns ∨
      (sortedKey l ∉ alkeys ns ∧
        alkeys (getStateName ns counter l).2.1 = alkeys ns ++ [sortedKey l]) := by
  unfold getStateName
  cases h : alget ns (sortedKey l) with
  | some v => simp [h]
  | none =>
    simp only [h]
    rw [alset_of_not_mem _ (alget_eq_none.mp h)]
    refine Or.inr ⟨alget_eq_none.mp h, ?_⟩
    unfold alkeys
    rw [List.map_append]
    rfl

/-! ## Facts about `symLoop` -/

theorem symLoop_ns_mono (a : Automata) (members processed : List String) :
    ∀ (syms : List String) (row ns : SMap String) (ctr : Nat) (wl : List String)
      {k v : String}, alget ns k = some v →
      alget (symLoop a members processed syms row ns ctr wl).2.1 k = some v := by
  intro syms
  induction syms with
  | nil => intro row ns ctr wl k v h; exact h
  | cons sym syms ih =>
    intro row ns ctr wl k v h
    unfold symLoop
    cases hu : unionDests a members sym with
    | nil => exact ih _ _ _ _ h
    | cons d ds => exact ih _ _ _ _ (getStateName_mono h)

theorem symLoop_values_mono (a : Automata) (members processed : List String) :
    ∀ (syms : List String) (row ns : SMap String) (ctr : Nat) (wl : List String)
      {v : String}, v ∈ alvalues ns →
      v ∈ alvalues (symLoop a members processed syms row ns ctr wl).2.1 := by
  intro syms
  induction syms with
  | nil => intro row ns ctr wl v h; exact h
  | cons sym syms ih =>
    intro row ns ctr wl v h
    unfold symLoop
    cases hu : unionDests a members sym with
    | nil => exact ih _ _ _ _ h
    | cons d ds => exact ih _ _ _ _ (getStateName_values_mono h)

theorem symLoop_keys (a : Automata) (members processed : List String) :
    ∀ (syms : List String) (row ns : SMap String) (ctr : Nat) (wl : List String),
      (alkeys ns).Nodup → (∀ k ∈ alkeys ns, k ∈ keyUniverse a) →
      (alkeys (symLoop a members processed syms row ns ctr wl).2.1).Nodup ∧
      (∀ k ∈ alkeys (symLoop a members processed syms row ns ctr wl).2.1,
        k ∈ keyUniverse a) := by
  intro syms
  induction syms with
  | nil => intro row ns ctr wl h1 h2; exact ⟨h1, h2⟩
  | cons sym syms ih =>
    intro row ns ctr wl h1 h2
    unfold symLoop
    cases hu : unionDests a members sym with
    | nil => exact ih _ _ _ _ h1 h2
    | cons d ds =>
      have hkey : sortedKey (d :: ds) = sortedKey (unionDests a members sym) := by
        rw [hu]
      refine ih _ _ _ _ ?_ ?_
      · rcases getStateName_keys ns ctr (d :: ds) with h | ⟨habs, h⟩
        · rw [h]; exact h1
        · rw [h, List.nodup_append]
          refine ⟨h1, List.nodup_singleton _, ?_⟩
          intro x hx hx'
          have hx'' : x = sortedKey (d :: ds) := by simpa using hx'
          subst hx''
          exact habs hx
      · rcases getStateName_keys ns ctr (d :: ds) with h | ⟨_, h⟩
        · rw [h]; exact h2
        · rw [h]
          intro k hk
          rcases List.mem_append.mp hk with hk' | hk'
          · exact h2 k hk'
          · have hk'' : k = sortedKey (d :: ds) := by simpa using hk'
            subst hk''
            rw [hkey]
            exact sortedKey_unionDests_mem_keyUniverse a members sym

/-- Master description of the worklist output of `symLoop`: the new entries
`pushes` sit on top of the incoming worklist, none of them is processed, all
of them are minted values, there are at most as many as symbols, and every
non-empty union of a treated symbol ends up mapped to a name that is either
processed or among the pushes. -/
theorem symLoop_pushes (a : Automata) (members processed : List String) :
    ∀ (syms : List String) (row ns : SMap String) (ctr : Nat) (wl : List String),
      ∃ pushes : List String,
        (symLoop a members processed syms row ns ctr wl).2.2.2 = pushes ++ wl ∧
        pushes.length ≤ syms.length ∧
        (∀ x ∈ pushes, x ∉ processed ∧
          x ∈ alvalues (symLoop a members processed syms row ns ctr wl).2.1) ∧
        (∀ sym ∈ syms, unionDests a members sym ≠ [] →
          ∃ v, alget (symLoop a members processed syms row ns ctr wl).2.1
                (sortedKey (unionDests a members sym)) = some v ∧
              (v ∈ processed ∨ v ∈ pushes)) := by
  intro syms
  induction syms with
  | nil =>
    intro row ns ctr wl
    exact ⟨[], rfl, le_refl 0, by simp, by simp⟩
  | cons sym syms ih =>
    intro row ns ctr wl
    unfold symLoop
    cases hu : unionDests a members sym with
    | nil =>
      obtain ⟨pushes, hwl, hlen, hmem, hsym⟩ := ih row ns ctr wl
      refine ⟨pushes, hwl, le_trans hlen (Nat.le_succ _), hmem, ?_⟩
      intro s hs hne
      rcases List.mem_cons.mp hs with h | h
      · subst h; exact absurd hu hne
      · exact hsym s h hne
    | cons d ds =>
      set r := getStateName ns ctr (d :: ds) with hr
      by_cases hp : r.1 ∈ processed
      · simp only [if_pos hp]
        obtain ⟨pushes, hwl, hlen, hmem, hsym⟩ :=
          ih (alset row sym r.1) r.2.1 r.2.2 wl
        refine ⟨pushes, hwl, le_trans hlen (Nat.le_succ _), hmem, ?_⟩
        intro s hs hne
        rcases List.mem_cons.mp hs with h | h
        · subst h
          refine ⟨r.1, ?_, Or.inl hp⟩
          rw [hu]
          exact symLoop_ns_mono a members processed _ _ _ _ _
            (hr ▸ getStateName_lookup ns ctr (d :: ds))
        · exact hsym s h hne
      · simp only [if_neg hp]
        obtain ⟨pushes, hwl, hlen, hmem, hsym⟩ :=
          ih (alset row sym r.1) r.2.1 r.2.2 (r.1 :: wl)
        refine ⟨pushes ++ [r.1], by rw [hwl, List.append_assoc]; rfl, ?_, ?_, ?_⟩
        · rw [List.length_append, List.length_singleton]
          exact Nat.succ_le_succ hlen
        · intro x hx
          rcases List.mem_append.mp hx with h | h
          · exact hmem x h
          · have hx' : x = r.1 := by simpa using h
            subst hx'
            refine ⟨hp, ?_⟩
            exact symLoop_values_mono a members processed _ _ _ _ _
              (hr ▸ getStateName_name_mem_values ns ctr (d :: ds))
        · intro s hs hne
          rcases List.mem_cons.mp hs with h | h
          · subst h
            refine ⟨r.1, ?_, Or.inr (List.mem_append.mpr (Or.inr (by simp)))⟩
            rw [hu]
            exact symLoop_ns_mono a members processed _ _ _ _ _
              (hr ▸ getStateName_lookup ns ctr (d :: ds))
          · obtain ⟨v, hv, hv'⟩ := hsym s h hne
            exact ⟨v, hv, hv'.imp id (fun h' => List.mem_append.mpr (Or.inl h'))⟩

/-- When every non-empty union of the treated symbols is already mapped to a
processed name, the iteration neither extends `new_states` nor pushes
anything: a stale worklist entry is a no-op apart from its row. -/
theorem symLoop_no_push (a : Automata) (members processed : List String) :
    ∀ (syms : List String) (row ns : SMap String) (ctr : Nat) (wl : List String),
      (∀ sym ∈ syms, unionDests a members sym ≠ [] →
        ∃ v, alget ns (sortedKey (unionDests a members sym)) = some v ∧
          v ∈ processed) →
      (symLoop a members processed syms row ns ctr wl).2.1 = ns ∧
      (symLoop a members processed syms row ns ctr wl).2.2.1 = ctr ∧
      (symLoop a members processed syms row ns ctr wl).2.2.2 = wl := by
  intro syms
  induction syms with
  | nil => intro row ns ctr wl _; exact ⟨rfl, rfl, rfl⟩
  | cons sym syms ih =>
    intro row ns ctr wl h
    unfold symLoop
    cases hu : unionDests a members sym with
    | nil =>
      refine ih _ _ _ _ ?_
      intro s hs hne
      exact h s (List.mem_cons_of_mem _ hs) hne
    | cons d ds =>
      obtain ⟨v, hv, hvp⟩ := h sym (List.mem_cons_self _ _) (by rw [hu]; simp)
      rw [hu] at hv
      have hgs : getStateName ns ctr (d :: ds) = (v, ns, ctr) := by
        unfold getStateName
        simp only [hv]
      simp only [hgs, hvp, if_true]
      refine ih _ _ _ _ ?_
      intro s hs hne
      exact h s (List.mem_cons_of_mem _ hs) hne

/-- Every binding of the row built by `symLoop` is either inherited or a
symbol of the treated list mapped to a minted value. -/
theorem symLoop_row (a : Automata) (members processed : List String) :
    ∀ (syms : List String) (row ns : SMap String) (ctr : Nat) (wl : List String),
      ∀ q ∈ (symLoop a members processed syms row ns ctr wl).1,
        q ∈ row ∨ (q.1 ∈ syms ∧
          q.2 ∈ alvalues (symLoop a members processed syms row ns ctr wl).2.1) := by
  intro syms
  induction syms with
  | nil => intro row ns ctr wl q hq; exact Or.inl hq
  | cons sym syms ih =>
    intro row ns ctr wl q hq
    cases hu : unionDests a members sym with
    | nil =>
      rw [symLoop, hu] at hq ⊢
      dsimp only at hq ⊢
      rcases ih _ _ _ _ q hq with h | ⟨h1, h2⟩
      · exact Or.inl h
      · exact Or.inr ⟨List.mem_cons_of_mem _ h1, h2⟩
    | cons d ds =>
      rw [symLoop, hu] at hq ⊢
      dsimp only at hq ⊢
      rcases ih _ _ _ _ q hq with h | ⟨h1, h2⟩
      · rcases mem_alset h with h' | h'
        · refine Or.inr ⟨by rw [h']; exact List.mem_cons_self _ _, ?_⟩
          rw [h']
          exact symLoop_values_mono a members processed _ _ _ _ _
            (getStateName_name_mem_values ns ctr (d :: ds))
        · exact Or.inl h'
      · exact Or.inr ⟨List.mem_cons_of_mem _ h1, h2⟩

/-! ## Loop invariants and termination of the conversion -/

theorem processed_le_card {a : Automata} {s : ConvSt} (h : SizeInv a s) :
    s.processed.length ≤ (keyUniverse a).toFinset.card := by
  obtain ⟨h1, h2, _, h4, h5⟩ := h
  have e1 : s.processed.length = s.processed.toFinset.card :=
    (List.toFinset_card_of_nodup h1).symm
  have e2 : s.processed.toFinset ⊆ (alvalues s.ns).toFinset := by
    intro x hx
    rw [List.mem_toFinset] at hx ⊢
    exact h2 x hx
  have e3 : (alvalues s.ns).toFinset.card ≤ (alvalues s.ns).length :=
    List.toFinset_card_le _
  have e4 : (alvalues s.ns).length = (alkeys s.ns).length := by
    simp [alvalues, alkeys]
  have e5 : (alkeys s.ns).length = (alkeys s.ns).toFinset.card :=
    (List.toFinset_card_of_nodup h4).symm
  have e6 : (alkeys s.ns).toFinset ⊆ (keyUniverse a).toFinset := by
    intro x hx
    rw [List.mem_toFinset] at hx ⊢
    exact h5 x hx
  calc s.processed.length = s.processed.toFinset.card := e1
    _ ≤ (alvalues s.ns).toFinset.card := Finset.card_le_card e2
    _ ≤ (alvalues s.ns).length := e3
    _ = (alkeys s.ns).toFinset.card := by rw [e4, e5]
    _ ≤ (keyUniverse a).toFinset.card := Finset.card_le_card e6

/-- Unfolding of one loop iteration on a non-empty worklist. -/
theorem convStep_eq (a : Automata) (s : ConvSt) (c : String)
    (rest : List String) (hwl : s.wl = c :: rest) :
    convStep a s =
      { ns := (symLoop a (splitComma c) (insertSet s.processed c)
                a.alphabet [] s.ns s.counter rest).2.1,
        counter := (symLoop a (splitComma c) (insertSet s.processed c)
                a.alphabet [] s.ns s.counter rest).2.2.1,
        dtr := alset s.dtr c (symLoop a (splitComma c) (insertSet s.processed c)
                a.alphabet [] s.ns s.counter rest).1,
        dfin := if (splitComma c).any (fun st => st ∈ a.final_states) then
                  insertSet s.dfin c
                else s.dfin,
        wl := (symLoop a (splitComma c) (insertSet s.processed c)
                a.alphabet [] s.ns s.counter rest).2.2.2,
        processed := insertSet s.processed c,
        init_name := s.init_name } := by
  unfold convStep
  rw [hwl]

theorem convStep_stale {a : Automata} {s : ConvSt} {c : String}
    {rest : List String} (hwl : s.wl = c :: rest) (hc : c ∈ s.processed)
    (hsz : SizeInv a s) (hst : StackInv a s) :
    (convStep a s).ns = s.ns ∧
    (convStep a s).processed = s.processed ∧
    (convStep a s).wl = rest ∧
    SizeInv a (convStep a s) ∧ StackInv a (convStep a s) := by
  have hins : insertSet s.processed c = s.processed := by
    unfold insertSet
    rw [if_pos hc]
  have hsucc : succOK a s.ns s.processed [] c :=
    hst [] c rest (by rw [hwl]; rfl) hc
  have hnp := symLoop_no_push a (splitComma c) s.processed a.alphabet
    [] s.ns s.counter rest
    (fun sym hs hne => by
      obtain ⟨v, hv, hv'⟩ := hsucc sym hs hne
      refine ⟨v, hv, ?_⟩
      rcases hv' with h | h
      · exact h
      · simp at h)
  rw [convStep_eq a s c rest hwl, hins]
  refine ⟨hnp.1, rfl, hnp.2.2, ?_, ?_⟩
  · obtain ⟨h1, h2, h3, h4, h5⟩ := hsz
    refine ⟨h1, ?_, ?_, ?_, ?_⟩ <;> simp only [hnp.1, hnp.2.2]
    · exact h2
    · intro x hx
      exact h3 x (by rw [hwl]; exact List.mem_cons_of_mem _ hx)
    · exact h4
    · exact h5
  · intro pre e post hdec he
    simp only [hnp.1, hnp.2.2] at hdec ⊢
    simp only at he
    have hdec' : s.wl = (c :: pre) ++ e :: post := by
      rw [hwl, hdec]
      rfl
    have hsucc' := hst (c :: pre) e post hdec' he
    intro sym hs hne
    obtain ⟨v, hv, hv'⟩ := hsucc' sym hs hne
    refine ⟨v, hv, ?_⟩
    rcases hv' with h | h
    · exact Or.inl h
    · rcases List.mem_cons.mp h with h' | h'
      · subst h'
        exact Or.inl hc
      · exact Or.inr h'

theorem convStep_fresh {a : Automata} {s : ConvSt} {c : String}
    {rest : List String} (hwl : s.wl = c :: rest) (hc : c ∉ s.processed)
    (hsz : SizeInv a s) (hst : StackInv a s) :
    (convStep a s).processed = c :: s.processed ∧
    (convStep a s).wl.length ≤ a.alphabet.length + rest.length ∧
    SizeInv a (convStep a s) ∧ StackInv a (convStep a s) := by
  have hins : insertSet s.processed c = c :: s.processed := by
    unfold insertSet
    rw [if_neg hc]
  obtain ⟨pushes, hpwl, hplen, hpmem, hpsym⟩ :=
    symLoop_pushes a (splitComma c) (c :: s.processed) a.alphabet
      [] s.ns s.counter rest
  have hcval : c ∈ alvalues s.ns := hsz.2.2.1 c (by rw [hwl]; exact List.mem_cons_self _ _)
  rw [convStep_eq a s c rest hwl, hins]
  refine ⟨rfl, ?_, ?_, ?_⟩
  · simp only [hpwl, List.length_append]
    exact Nat.add_le_add_right hplen _
  · obtain ⟨h1, h2, h3, h4, h5⟩ := hsz
    refine ⟨List.nodup_cons.mpr ⟨hc, h1⟩, ?_, ?_, ?_, ?_⟩
    · intro x hx
      rcases List.mem_cons.mp hx with h | h
      · subst h
        exact symLoop_values_mono a _ _ _ _ _ _ _ hcval
      · exact symLoop_values_mono a _ _ _ _ _ _ _ (h2 x h)
    · intro x hx
      simp only [hpwl] at hx
      rcases List.mem_append.mp hx with h | h
      · exact (hpmem x h).2
      · exact symLoop_values_mono a _ _ _ _ _ _ _
          (h3 x (by rw [hwl]; exact List.mem_cons_of_mem _ h))
    · exact (symLoop_keys a _ _ _ _ _ _ _ h4 h5).1
    · exact (symLoop_keys a _ _ _ _ _ _ _ h4 h5).2
  · intro pre e post hdec he
    simp only at he
    simp only [hpwl] at hdec
    intro sym hs hne
    rcases List.append_eq_append_iff.mp hdec with ⟨x, hpre, hrest⟩ | ⟨y, hpush, hrest⟩
    · -- e lies in the old tail `rest`
      rcases List.mem_cons.mp he with hec | hep
      · subst hec
        obtain ⟨v, hv, hv'⟩ := hpsym sym hs hne
        refine ⟨v, hv, ?_⟩
        rcases hv' with h | h
        · exact Or.inl h
        · exact Or.inr (by rw [hpre]; exact List.mem_append.mpr (Or.inl h))
      · have hold := hst (c :: x) e post (by rw [hwl, hrest]; rfl) hep
        obtain ⟨v, hv, hv'⟩ := hold sym hs hne
        refine ⟨v, symLoop_ns_mono a _ _ _ _ _ _ _ hv, ?_⟩
        rcases hv' with h | h
        · exact Or.inl (List.mem_cons_of_mem _ h)
        · rcases List.mem_cons.mp h with h' | h'
          · subst h'
            exact Or.inl (List.mem_cons_self _ _)
          · exact Or.inr (by rw [hpre]; exact List.mem_append.mpr (Or.inr h'))
    · -- e comes from the pushes, or is the head of `rest`
      cases y with
      | nil =>
        simp only [List.nil_append] at hrest
        rw [List.append_nil] at hpush
        rcases List.mem_cons.mp he with hec | hep
        · subst hec
          obtain ⟨v, hv, hv'⟩ := hpsym sym hs hne
          refine ⟨v, hv, ?_⟩
          rcases hv' with h | h
          · exact Or.inl h
          · exact Or.inr (by rw [← hpush]; exact h)
        · have hold := hst [c] e post (by rw [hwl, ← hrest]; rfl) hep
          obtain ⟨v, hv, hv'⟩ := hold sym hs hne
          refine ⟨v, symLoop_ns_mono a _ _ _ _ _ _ _ hv, ?_⟩
          rcases hv' with h | h
          · exact Or.inl (List.mem_cons_of_mem _ h)
          · have h' : v = c := by simpa using h
            subst h'
            exact Or.inl (List.mem_cons_self _ _)
      | cons f y' =>
        have hef : e = f := by
          have := hrest
          simp only [List.cons_append] at this
          exact (List.cons.injEq _ _ _ _ ▸ this : _ ∧ _).1
        subst hef
        have : e ∈ pushes := by
          rw [hpush]
          exact List.mem_append.mpr (Or.inr (List.mem_cons_self _ _))
        exact absurd he (hpmem e this).1

theorem convLoop_empty_wl (a : Automata) (n : Nat) (s : ConvSt)
    (h : s.wl = []) : convLoop a n s = s := by
  cases n with
  | zero => rfl
  | succ n =>
    rw [convLoop, h]

theorem convLoop_reaches_empty_aux (a : Automata) :
    ∀ (n : Nat) (s : ConvSt), SizeInv a s → StackInv a s →
      convMeasure a s ≤ n → (convLoop a n s).wl = [] := by
  intro n
  induction n with
  | zero =>
    intro s hsz hst hm
    unfold convMeasure at hm
    have hlen : s.wl.length = 0 := by omega
    have h := List.length_eq_zero.mp hlen
    rw [convLoop_empty_wl a 0 s h]
    exact h
  | succ n ih =>
    intro s hsz hst hm
    cases hwl : s.wl with
    | nil =>
      rw [convLoop_empty_wl a (n + 1) s hwl]
      exact hwl
    | cons c rest =>
      rw [convLoop, hwl]
      dsimp only
      by_cases hc : c ∈ s.processed
      · obtain ⟨hns, hproc, hwl', hsz', hst'⟩ := convStep_stale hwl hc hsz hst
        refine ih _ hsz' hst' ?_
        unfold convMeasure at hm ⊢
        rw [hproc, hwl']
        rw [hwl] at hm
        simp only [List.length_cons] at hm
        omega
      · obtain ⟨hproc, hlen, hsz', hst'⟩ := convStep_fresh hwl hc hsz hst
        refine ih _ hsz' hst' ?_
        have hple : s.processed.length ≤ (keyUniverse a).toFinset.card :=
          processed_le_card hsz
        unfold convMeasure at hm ⊢
        rw [hproc] at *
        rw [hwl] at hm
        simp only [List.length_cons] at *
        have h1 : (keyUniverse a).toFinset.card + 1 - (s.processed.length + 1) =
            (keyUniverse a).toFinset.card - s.processed.length := by omega
        have h2 : (keyUniverse a).toFinset.card + 1 - s.processed.length =
            ((keyUniverse a).toFinset.card - s.processed.length) + 1 := by omega
        rw [h1]
        rw [h2, Nat.succ_mul] at hm
        omega

/-- The state seeded by `convInit` satisfies both invariants. -/
theorem convInit_invariants (a : Automata) :
    SizeInv a (convInit a) ∧ StackInv a (convInit a) := by
  constructor
  · refine ⟨List.nodup_nil, by simp [convInit], ?_, ?_, ?_⟩
    · intro x hx
      have hx' : x = (getStateName [] 0 [a.initial_state]).1 := by
        simpa [convInit] using hx
      subst hx'
      exact getStateName_name_mem_values [] 0 [a.initial_state]
    · rcases getStateName_keys [] 0 [a.initial_state] with h | ⟨_, h⟩ <;>
        simp only [convInit] <;> rw [h] <;> simp [alkeys]
    · intro k hk
      rcases getStateName_keys [] 0 [a.initial_state] with h | ⟨_, h⟩ <;>
        simp only [convInit] at hk <;> rw [h] at hk
      · simp [alkeys] at hk
      · have : k = sortedKey [a.initial_state] := by
          simpa [alkeys] using hk
        subst this
        exact List.mem_cons_self _ _
  · intro pre e post _ he
    simp [convInit] at he

theorem convMeasure_init (a : Automata) :
    convMeasure a (convInit a) = convFuel a := by
  unfold convMeasure convFuel convInit
  simp

/-- The chosen fuel always suffices: the conversion loop empties its
worklist, i.e. the Python `while` loop terminates on every input. -/
theorem convLoop_reaches_empty (a : Automata) :
    (convLoop a (convFuel a) (convInit a)).wl = [] := by
  obtain ⟨hsz, hst⟩ := convInit_invariants a
  exact convLoop_reaches_empty_aux a (convFuel a) (convInit a) hsz hst
    (le_of_eq (convMeasure_init a))

/-! ## Facts about the loader's validation stages -/

theorem checkFinals_ok_iff {states fins : List String} :
    checkFinals states fins = .ok () ↔ ∀ f ∈ fins, f ∈ states := by
  induction fins with
  | nil => simp [checkFinals]
  | cons f t ih =>
    by_cases h : f ∈ states <;> simp [checkFinals, h, ih]

theorem checkFinals_error {states fins : List String} {e : String}
    (h : checkFinals states fins = .error e) : e = finalMsg := by
  induction fins with
  | nil => simp [checkFinals] at h
  | cons f t ih =>
    by_cases hf : f ∈ states
    · rw [checkFinals, if_pos hf] at h
      exact ih h
    · rw [checkFinals, if_neg hf] at h
      exact (Except.error.injEq _ _ ▸ h.symm : _)

theorem checkDests_ok_iff {states ds : List String} :
    checkDests states ds = .ok () ↔ ∀ d ∈ ds, d ∈ states := by
  induction ds with
  | nil => simp [checkDests]
  | cons d t ih =>
    by_cases h : d ∈ states <;> simp [checkDests, h, ih]

theorem checkDests_error {states ds : List String} {e : String}
    (h : checkDests states ds = .error e) : e = destMsg := by
  induction ds with
  | nil => simp [checkDests] at h
  | cons d t ih =>
    by_cases hd : d ∈ states
    · rw [checkDests, if_pos hd] at h
      exact ih h
    · rw [checkDests, if_neg hd] at h
      exact (Except.error.injEq _ _ ▸ h.symm : _)

theorem checkSymbols_ok_iff {alphabet states : List String}
    {row : SMap Dest} :
    checkSymbols alphabet states row = .ok () ↔
      ∀ q ∈ row, q.1 ∈ alphabet ∧ ∀ x ∈ destIter q.2, x ∈ states := by
  induction row with
  | nil => simp [checkSymbols]
  | cons q t ih =>
    obtain ⟨sym, d⟩ := q
    by_cases hs : sym ∈ alphabet
    · cases hd : checkDests states (destIter d) with
      | ok u =>
        cases u
        simp only [checkSymbols, if_pos hs, hd, ih, List.mem_cons]
        constructor
        · rintro h q (hq | hq)
          · subst hq
            exact ⟨hs, checkDests_ok_iff.mp hd⟩
          · exact h q hq
        · intro h q hq
          exact h q (Or.inr hq)
      | error e =>
        simp only [checkSymbols, if_pos hs, hd]
        constructor
        · intro h
          exact absurd h (by simp)
        · intro h
          have := (h (sym, d) (List.mem_cons_self _ _)).2
          rw [checkDests_ok_iff.mpr this] at hd
          simp at hd
    · simp only [checkSymbols, if_neg hs]
      constructor
      · intro h
        exact absurd h (by simp)
      · intro h
        exact absurd (h (sym, d) (List.mem_cons_self _ _)).1 hs

theorem checkSymbols_error {alphabet states : List String}
    {row : SMap Dest} {e : String}
    (h : checkSymbols alphabet states row = .error e) :
    e = symbolMsg ∨ e = destMsg := by
  induction row with
  | nil => simp [checkSymbols] at h
  | cons q t ih =>
    obtain ⟨sym, d⟩ := q
    by_cases hs : sym ∈ alphabet
    · rw [checkSymbols, if_pos hs] at h
      cases hd : checkDests states (destIter d) with
      | ok u =>
        cases u
        rw [hd] at h
        exact ih h
      | error e' =>
        rw [hd] at h
        have he : e = e' := (Except.error.injEq _ _ ▸ h.symm : _)
        exact Or.inr (he ▸ checkDests_error hd)
    · rw [checkSymbols, if_neg hs] at h
      exact Or.inl (Except.error.injEq _ _ ▸ h.symm : _)

theorem checkOrigins_ok_iff {alphabet states : List String}
    {tr : SMap (SMap Dest)} :
    checkOrigins alphabet states tr = .ok () ↔
      ∀ p ∈ tr, p.1 ∈ states ∧
        ∀ q ∈ p.2, q.1 ∈ alphabet ∧ ∀ x ∈ destIter q.2, x ∈ states := by
  induction tr with
  | nil => simp [checkOrigins]
  | cons p t ih =>
    obtain ⟨origin, row⟩ := p
    by_cases ho : origin ∈ states
    · cases hr : checkSymbols alphabet states row with
      | ok u =>
        cases u
        simp only [checkOrigins, if_pos ho, hr, ih, List.mem_cons]
        constructor
        · rintro h p (hp | hp)
          · subst hp
            exact ⟨ho, checkSymbols_ok_iff.mp hr⟩
          · exact h p hp
        · intro h p hp
          exact h p (Or.inr hp)
      | error e =>
        simp only [checkOrigins, if_pos ho, hr]
        constructor
        · intro h
          exact absurd h (by simp)
        · intro h
          have := (h (origin, row) (List.mem_cons_self _ _)).2
          rw [checkSymbols_ok_iff.mpr this] at hr
          simp at hr
    · simp only [checkOrigins, if_neg ho]
      constructor
      · intro h
        exact absurd h (by simp)
      · intro h
        exact absurd (h (origin, row) (List.mem_cons_self _ _)).1 ho

theorem checkOrigins_error {alphabet states : List String}
    {tr : SMap (SMap Dest)} {e : String}
    (h : checkOrigins alphabet states tr = .error e) :
    e = originMsg ∨ e = symbolMsg ∨ e = destMsg := by
  induction tr with
  | nil => simp [checkOrigins] at h
  | cons p t ih =>
    obtain ⟨origin, row⟩ := p
    by_cases ho : origin ∈ states
    · rw [checkOrigins, if_pos ho] at h
      cases hr : checkSymbols alphabet states row with
      | ok u =>
        cases u
        rw [hr] at h
        exact ih h
      | error e' =>
        rw [hr] at h
        have he : e = e' := (Except.error.injEq _ _ ▸ h.symm : _)
        exact Or.inr (he ▸ checkSymbols_error hr)
    · rw [checkOrigins, if_neg ho] at h
      exact Or.inl (Except.error.injEq _ _ ▸ h.symm : _)

/-- An out-of-set destination (all earlier checks passing) triggers exactly
the destination message. -/
theorem checkDests_dest_first {states ds : List String}
    (hbad : ∃ d ∈ ds, d ∉ states) :
    checkDests states ds = .error destMsg := by
  induction ds with
  | nil => simp at hbad
  | cons d t ih =>
    by_cases hd : d ∈ states
    · rw [checkDests, if_pos hd]
      refine ih ?_
      obtain ⟨d', hd', hbad'⟩ := hbad
      rcases List.mem_cons.mp hd' with h | h
      · subst h
        exact absurd hd hbad'
      · exact ⟨d', h, hbad'⟩
    · rw [checkDests, if_neg hd]

/-- When every listed destination is in the state set but some symbol is
out of the alphabet, the row check fails with exactly the symbol message. -/
theorem checkSymbols_symbol_first {alphabet states : List String}
    {row : SMap Dest}
    (hdests : ∀ q ∈ row, ∀ x ∈ destIter q.2, x ∈ states)
    (hbad : ∃ q ∈ row, q.1 ∉ alphabet) :
    checkSymbols alphabet states row = .error symbolMsg := by
  induction row with
  | nil => simp at hbad
  | cons q t ih =>
    obtain ⟨sym, d⟩ := q
    by_cases hs : sym ∈ alphabet
    · rw [checkSymbols, if_pos hs]
      have hok : checkDests states (destIter d) = .ok () :=
        checkDests_ok_iff.mpr (hdests (sym, d) (List.mem_cons_self _ _))
      rw [hok]
      refine ih (fun q hq => hdests q (List.mem_cons_of_mem _ hq)) ?_
      obtain ⟨q', hq', hbad'⟩ := hbad
      rcases List.mem_cons.mp hq' with h | h
      · subst h
        exact absurd hs hbad'
      · exact ⟨q', h, hbad'⟩
    · rw [checkSymbols, if_neg hs]

/-- When every symbol is in the alphabet but some listed destination is out
of the state set, the row check fails with exactly the destination
message. -/
theorem checkSymbols_dest_first {alphabet states : List String}
    {row : SMap Dest}
    (hsyms : ∀ q ∈ row, q.1 ∈ alphabet)
    (hbad : ∃ q ∈ row, ∃ x ∈ destIter q.2, x ∉ states) :
    checkSymbols alphabet states row = .error destMsg := by
  induction row with
  | nil => simp at hbad
  | cons q t ih =>
    obtain ⟨sym, d⟩ := q
    have hs : sym ∈ alphabet := hsyms (sym, d) (List.mem_cons_self _ _)
    rw [checkSymbols, if_pos hs]
    by_cases hrow : ∃ x ∈ destIter d, x ∉ states
    · rw [checkDests_dest_first hrow]
    · have hok : checkDests states (destIter d) = .ok () := by
        refine checkDests_ok_iff.mpr ?_
        intro x hx
        by_contra hxs
        exact hrow ⟨x, hx, hxs⟩
      rw [hok]
      refine ih (fun q hq => hsyms q (List.mem_cons_of_mem _ hq)) ?_
      obtain ⟨q', hq', hbad'⟩ := hbad
      rcases List.mem_cons.mp hq' with h | h
      · subst h
        exact absurd hbad' hrow
      · exact ⟨q', h, hbad'⟩

/-- An origin outside the state set, with every row otherwise clean,
produces exactly the origin message. -/
theorem checkOrigins_origin_first {alphabet states : List String}
    {tr : SMap (SMap Dest)}
    (hrows : ∀ p ∈ tr, ∀ q ∈ p.2, q.1 ∈ alphabet ∧
      ∀ x ∈ destIter q.2, x ∈ states)
    (hbad : ∃ p ∈ tr, p.1 ∉ states) :
    checkOrigins alphabet states tr = .error originMsg := by
  induction tr with
  | nil => simp at hbad
  | cons p t ih =>
    obtain ⟨origin, row⟩ := p
    by_cases ho : origin ∈ states
    · rw [checkOrigins, if_pos ho]
      have hok : checkSymbols alphabet states row = .ok () :=
        checkSymbols_ok_iff.mpr (hrows (origin, row) (List.mem_cons_self _ _))
      rw [hok]
      refine ih (fun p hp => hrows p (List.mem_cons_of_mem _ hp)) ?_
      obtain ⟨p', hp', hbad'⟩ := hbad
      rcases List.mem_cons.mp hp' with h | h
      · subst h
        exact absurd ho hbad'
      · exact ⟨p', h, hbad'⟩
    · rw [checkOrigins, if_neg ho]

/-- A symbol outside the alphabet, with origins and destinations otherwise
clean, produces exactly the symbol message. -/
theorem checkOrigins_symbol_first {alphabet states : List String}
    {tr : SMap (SMap Dest)}
    (horigs : ∀ p ∈ tr, p.1 ∈ states)
    (hdests : ∀ p ∈ tr, ∀ q ∈ p.2, ∀ x ∈ destIter q.2, x ∈ states)
    (hbad : ∃ p ∈ tr, ∃ q ∈ p.2, q.1 ∉ alphabet) :
    checkOrigins alphabet states tr = .error symbolMsg := by
  induction tr with
  | nil => simp at hbad
  | cons p t ih =>
    obtain ⟨origin, row⟩ := p
    have ho : origin ∈ states := horigs (origin, row) (List.mem_cons_self _ _)
    rw [checkOrigins, if_pos ho]
    by_cases hrow : ∃ q ∈ row, q.1 ∉ alphabet
    · rw [checkSymbols_symbol_first
        (hdests (origin, row) (List.mem_cons_self _ _)) hrow]
    · have hok : checkSymbols alphabet states row = .ok () := by
        refine checkSymbols_ok_iff.mpr ?_
        intro q hq
        refine ⟨?_, hdests (origin, row) (List.mem_cons_self _ _) q hq⟩
        by_contra hqa
        exact hrow ⟨q, hq, hqa⟩
      rw [hok]
      refine ih (fun p hp => horigs p (List.mem_cons_of_mem _ hp))
        (fun p hp => hdests p (List.mem_cons_of_mem _ hp)) ?_
      obtain ⟨p', hp', hbad'⟩ := hbad
      rcases List.mem_cons.mp hp' with h | h
      · subst h
        exact absurd hbad' hrow
      · exact ⟨p', h, hbad'⟩

/-- A destination outside the state set, with origins and symbols otherwise
clean, produces exactly the destination message. -/
theorem checkOrigins_dest_first {alphabet states : List String}
    {tr : SMap (SMap Dest)}
    (horigs : ∀ p ∈ tr, p.1 ∈ states)
    (hsyms : ∀ p ∈ tr, ∀ q ∈ p.2, q.1 ∈ alphabet)
    (hbad : ∃ p ∈ tr, ∃ q ∈ p.2, ∃ x ∈ destIter q.2, x ∉ states) :
    checkOrigins alphabet states tr = .error destMsg := by
  induction tr with
  | nil => simp at hbad
  | cons p t ih =>
    obtain ⟨origin, row⟩ := p
    have ho : origin ∈ states := horigs (origin, row) (List.mem_cons_self _ _)
    rw [checkOrigins, if_pos ho]
    by_cases hrow : ∃ q ∈ row, ∃ x ∈ destIter q.2, x ∉ states
    · rw [checkSymbols_dest_first
        (hsyms (origin, row) (List.mem_cons_self _ _)) hrow]
    · have hok : checkSymbols alphabet states row = .ok () := by
        refine checkSymbols_ok_iff.mpr ?_
        intro q hq
        refine ⟨hsyms (origin, row) (List.mem_cons_self _ _) q hq, ?_⟩
        intro x hx
        by_contra hxs
        exact hrow ⟨q, hq, x, hx, hxs⟩
      rw [hok]
      refine ih (fun p hp => horigs p (List.mem_cons_of_mem _ hp))
        (fun p hp => hsyms p (List.mem_cons_of_mem _ hp)) ?_
      obtain ⟨p', hp', hbad'⟩ := hbad
      rcases List.mem_cons.mp hp' with h | h
      · subst h
        exact absurd hbad' hrow
      · exact ⟨p', h, hbad'⟩

theorem buildTransitions_ok_of_len3 {lines : List (List String)}
    (h : ∀ l ∈ lines, l.length = 3) :
    ∀ tr0 : SMap (SMap Dest), ∃ tr, buildTransitions lines tr0 = .ok tr := by
  induction lines with
  | nil => intro tr0; exact ⟨tr0, rfl⟩
  | cons parts rest ih =>
    intro tr0
    obtain ⟨o, sy, d, hparts⟩ := List.length_eq_three.mp
      (h parts (List.mem_cons_self _ _))
    subst hparts
    exact ih (fun l hl => h l (List.mem_cons_of_mem _ hl)) _

theorem addTransition_allLst {tr : SMap (SMap Dest)} {o sy d : String}
    (h : allLst tr) : allLst (addTransition tr o sy d) := by
  intro p hp q hq
  unfold addTransition at hp
  rcases mem_alset hp with hp' | hp'
  · subst hp'
    simp only at hq
    rcases mem_alset hq with hq' | hq'
    · subst hq'
      exact ⟨_, rfl⟩
    · cases hrow : alget tr o with
      | none =>
        rw [hrow] at hq'
        simp at hq'
      | some row0 =>
        rw [hrow] at hq'
        exact h (o, row0) (alget_mem hrow) q hq'
  · exact h p hp' q hq

theorem buildTransitions_allLst :
    ∀ {lines : List (List String)} {tr0 tr : SMap (SMap Dest)},
      buildTransitions lines tr0 = .ok tr → allLst tr0 → allLst tr := by
  intro lines
  induction lines with
  | nil =>
    intro tr0 tr h h0
    simp only [buildTransitions] at h
    cases h
    exact h0
  | cons parts rest ih =>
    intro tr0 tr h h0
    match parts, h with
    | [o, sy, d], h => exact ih h (addTransition_allLst h0)

theorem destIter_eq_targets {d : Dest} (h : ∃ l, d = .lst l) :
    destIter d = destTargets d := by
  obtain ⟨l, rfl⟩ := h
  rfl

/-- Inversion of a successful load: the result record is exactly the input
fields plus the built transition table, and all checks passed. -/
theorem load_ok_inv {alphabet states fins : List String} {init : String}
    {lines : List (List String)} {a : Automata}
    (h : load_automata alphabet states fins init lines = .ok a) :
    buildTransitions lines [] = .ok a.transitions ∧
    a.alphabet = alphabet ∧ a.states = states ∧ a.final_states = fins ∧
    a.initial_state = init ∧ init ∈ states ∧
    checkFinals states fins = .ok () ∧
    checkOrigins alphabet states a.transitions = .ok () := by
  unfold load_automata at h
  dsimp only at h
  cases hb : buildTransitions lines [] with
  | error e => rw [hb] at h; dsimp only at h; simp at h
  | ok tr =>
    rw [hb] at h
    dsimp only at h
    by_cases hi : init ∈ states
    · rw [if_pos hi] at h
      cases hf : checkFinals states fins with
      | error e => rw [hf] at h; dsimp only at h; simp at h
      | ok u =>
        cases u
        rw [hf] at h
        dsimp only at h
        cases ho : checkOrigins alphabet states tr with
        | error e => rw [ho] at h; dsimp only at h; simp at h
        | ok u =>
          cases u
          rw [ho] at h
          dsimp only at h
          obtain rfl := Except.ok.inj h
          exact ⟨rfl, rfl, rfl, rfl, rfl, hi, rfl, ho⟩
    · rw [if_neg hi] at h
      dsimp only at h
      simp at h

/-! ## The four structural invariants -/

theorem mem_insertSet {l : List String} {c x : String}
    (h : x ∈ insertSet l c) : x = c ∨ x ∈ l := by
  unfold insertSet at h
  by_cases hc : c ∈ l
  · rw [if_pos hc] at h
    exact Or.inr h
  · rw [if_neg hc] at h
    exact List.mem_cons.mp h

theorem convStep_BasicInv {a : Automata} {s : ConvSt} (h : BasicInv a s) :
    BasicInv a (convStep a s) := by
  cases hwl : s.wl with
  | nil =>
    have : convStep a s = s := by
      unfold convStep
      rw [hwl]
    rw [this]
    exact h
  | cons c rest =>
    obtain ⟨h1, h2, h3, h4⟩ := h
    have hcval : c ∈ alvalues s.ns :=
      h2 c (by rw [hwl]; exact List.mem_cons_self _ _)
    obtain ⟨pushes, hpwl, _, hpmem, _⟩ :=
      symLoop_pushes a (splitComma c) (insertSet s.processed c) a.alphabet
        [] s.ns s.counter rest
    rw [convStep_eq a s c rest hwl]
    refine ⟨symLoop_values_mono a _ _ _ _ _ _ _ h1, ?_, ?_, ?_⟩
    · intro x hx
      simp only at hx
      rw [hpwl] at hx
      rcases List.mem_append.mp hx with hx' | hx'
      · exact (hpmem x hx').2
      · exact symLoop_values_mono a _ _ _ _ _ _ _
          (h2 x (by rw [hwl]; exact List.mem_cons_of_mem _ hx'))
    · intro x hx
      simp only at hx
      by_cases hfin : (splitComma c).any (fun st => st ∈ a.final_states)
      · rw [if_pos hfin] at hx
        rcases mem_insertSet hx with hx' | hx'
        · subst hx'
          exact symLoop_values_mono a _ _ _ _ _ _ _ hcval
        · exact symLoop_values_mono a _ _ _ _ _ _ _ (h3 x hx')
      · rw [if_neg hfin] at hx
        exact symLoop_values_mono a _ _ _ _ _ _ _ (h3 x hx)
    · intro p hp
      simp only at hp
      rcases mem_alset hp with hp' | hp'
      · subst hp'
        refine ⟨symLoop_values_mono a _ _ _ _ _ _ _ hcval, ?_⟩
        intro q hq
        rcases symLoop_row a _ _ _ _ _ _ _ q hq with hq' | ⟨hq1, hq2⟩
        · simp at hq'
        · exact ⟨hq1, hq2⟩
      · obtain ⟨hp1, hp2⟩ := h4 p hp'
        refine ⟨symLoop_values_mono a _ _ _ _ _ _ _ hp1, ?_⟩
        intro q hq
        obtain ⟨hq1, hq2⟩ := hp2 q hq
        exact ⟨hq1, symLoop_values_mono a _ _ _ _ _ _ _ hq2⟩

theorem convLoop_BasicInv (a : Automata) (n : Nat) :
    ∀ s : ConvSt, BasicInv a s → BasicInv a (convLoop a n s) := by
  induction n with
  | zero => intro s h; exact h
  | succ n ih =>
    intro s h
    cases hwl : s.wl with
    | nil =>
      rw [convLoop_empty_wl a (n + 1) s hwl]
      exact h
    | cons c rest =>
      rw [convLoop, hwl]
      dsimp only
      exact ih _ (convStep_BasicInv h)

theorem convInit_BasicInv (a : Automata) : BasicInv a (convInit a) := by
  refine ⟨getStateName_name_mem_values [] 0 [a.initial_state], ?_, ?_, ?_⟩
  · intro x hx
    have hx' : x = (getStateName [] 0 [a.initial_state]).1 := by
      simpa [convInit] using hx
    subst hx'
    exact getStateName_name_mem_values [] 0 [a.initial_state]
  · intro x hx
    simp [convInit] at hx
  · intro p hp
    simp [convInit] at hp

/-- The converter's output always satisfies the four §3 invariants. -/
theorem convert_to_dfa_invariants (a : Automata) :
    invariantsHold (convert_to_dfa a) := by
  have hinv := convLoop_BasicInv a (convFuel a) (convInit a) (convInit_BasicInv a)
  obtain ⟨h1, _, h3, h4⟩ := hinv
  unfold convert_to_dfa convFinalize
  refine ⟨h1, h3, ?_⟩
  intro p hp
  simp only [List.mem_map] at hp
  obtain ⟨p0, hp0, rfl⟩ := hp
  obtain ⟨hp1, hp2⟩ := h4 p0 hp0
  refine ⟨hp1, ?_⟩
  intro q hq
  simp only [List.mem_map] at hq
  obtain ⟨q0, hq0, rfl⟩ := hq
  obtain ⟨hq1, hq2⟩ := hp2 q0 hq0
  refine ⟨hq1, ?_⟩
  intro d hd
  have hd' : d = q0.2 := by simpa [destTargets] using hd
  subst hd'
  exact hq2

/-- The loader's output always satisfies the four §3 invariants. -/
theorem load_automata_invariants {alphabet states fins : List String}
    {init : String} {lines : List (List String)} {a : Automata}
    (h : load_automata alphabet states fins init lines = .ok a) :
    invariantsHold a := by
  obtain ⟨hb, ha, hs, hf, hi, hinit, hfin, horig⟩ := load_ok_inv h
  have hlst : allLst a.transitions :=
    buildTransitions_allLst hb (by intro p hp; simp at hp)
  have ho := checkOrigins_ok_iff.mp horig
  refine ⟨?_, ?_, ?_⟩
  · rw [hi, hs]
    exact hinit
  · rw [hf, hs]
    exact checkFinals_ok_iff.mp hfin
  · intro p hp
    obtain ⟨hp1, hp2⟩ := ho p hp
    refine ⟨by rw [hs]; exact hp1, ?_⟩
    intro q hq
    obtain ⟨hq1, hq2⟩ := hp2 q hq
    refine ⟨by rw [ha]; exact hq1, ?_⟩
    intro d hd
    rw [hs]
    apply hq2
    rw [destIter_eq_targets (hlst p hp q hq)]
    exact hd

/-- If every stored destination sequence is a non-empty list, the simulator
never hits the exceptional `v[0]` case: it always returns an outcome. -/
theorem processFrom_total {a : Automata}
    (h : ∀ p ∈ a.transitions, ∀ q ∈ p.2, ∃ l, q.2 = Dest.lst l ∧ l ≠ []) :
    ∀ (cur : String) (w : List String), (processFrom a cur w).isSome := by
  intro cur w
  induction w generalizing cur with
  | nil => simp [processFrom]
  | cons sym rest ih =>
    rw [processFrom]
    by_cases hs : sym ∈ a.alphabet
    · rw [if_pos hs]
      cases hrow : alget a.transitions cur with
      | none => simp
      | some row =>
        cases hd : alget row sym with
        | none => simp [hd]
        | some d =>
          simp only [hd]
          obtain ⟨l, hld, hlne⟩ :=
            h (cur, row) (alget_mem hrow) (sym, d) (alget_mem hd)
          subst hld
          cases l with
          | nil => exact absurd rfl hlne
          | cons x xs =>
            simp only [destFirst, List.head?]
            exact ih x
    · rw [if_neg hs]
      simp

/-- Successful load once all three checks pass. -/
theorem load_ok_of_checks {alphabet states fins : List String} {init : String}
    {lines : List (List String)} {tr : SMap (SMap Dest)}
    (hb : buildTransitions lines [] = .ok tr) (hi : init ∈ states)
    (hf : checkFinals states fins = .ok ())
    (ho : checkOrigins alphabet states tr = .ok ()) :
    load_automata alphabet states fins init lines =
      .ok ⟨alphabet, states, fins, init, tr⟩ := by
  unfold load_automata
  dsimp only
  rw [hb]
  dsimp only
  rw [if_pos hi, hf]
  dsimp only
  rw [ho]

theorem load_error_of_init {alphabet states fins : List String} {init : String}
    {lines : List (List String)} {tr : SMap (SMap Dest)}
    (hb : buildTransitions lines [] = .ok tr) (hi : init ∉ states) :
    load_automata alphabet states fins init lines =
      .error ("Erro ao ler o arquivo: " ++ initMsg) := by
  unfold load_automata
  dsimp only
  rw [hb]
  dsimp only
  rw [if_neg hi]

theorem load_error_of_finals {alphabet states fins : List String}
    {init : String} {lines : List (List String)} {tr : SMap (SMap Dest)}
    {e : String} (hb : buildTransitions lines [] = .ok tr)
    (hi : init ∈ states) (hf : checkFinals states fins = .error e) :
    load_automata alphabet states fins init lines =
      .error ("Erro ao ler o arquivo: " ++ e) := by
  unfold load_automata
  dsimp only
  rw [hb]
  dsimp only
  rw [if_pos hi, hf]

theorem load_error_of_origins {alphabet states fins : List String}
    {init : String} {lines : List (List String)} {tr : SMap (SMap Dest)}
    {e : String} (hb : buildTransitions lines [] = .ok tr)
    (hi : init ∈ states) (hf : checkFinals states fins = .ok ())
    (ho : checkOrigins alphabet states tr = .error e) :
    load_automata alphabet states fins init lines =
      .error ("Erro ao ler o arquivo: " ++ e) := by
  unfold load_automata
  dsimp only
  rw [hb]
  dsimp only
  rw [if_pos hi, hf]
  dsimp only
  rw [ho]

/-! ## Claim theorems -/

/-- C1: the claim says `convert_to_dfa` preserves the accepted language of
every input (in particular of every already-deterministic input).  It does
not: on the deterministic automaton `exC1` (one accepting state `s`, no
transitions), the original accepts the empty word but the converted
automaton rejects it, because the converter renames the initial state to
`q0` and then checks finality of the minted name `q0` against the original
final-state set `{s}`. -/
theorem C1_convert_changes_language :
    processOne exC1 [] = some Outcome.ACEITA ∧
    processOne (convert_to_dfa exC1) [] = some Outcome.REJEITA :=
  ⟨rfl, rfl⟩

/-- C2: per-word simulation starts at `initial_state`, scans left to right,
returns `INVALIDA` at the first out-of-alphabet symbol, `REJEITA` at a
missing transition, steps to the first entry of the destination sequence,
and classifies the final state against `final_states` when the word is
consumed. -/
theorem C2_process_scans_word (a : Automata) :
    (∀ w, processOne a w = processFrom a a.initial_state w) ∧
    (∀ cur sym rest, sym ∉ a.alphabet →
      processFrom a cur (sym :: rest) = some Outcome.INVALIDA) ∧
    (∀ cur sym rest, sym ∈ a.alphabet →
      (alget a.transitions cur).bind (fun row => alget row sym) = none →
      processFrom a cur (sym :: rest) = some Outcome.REJEITA) ∧
    (∀ cur sym rest d0 ds, sym ∈ a.alphabet →
      (alget a.transitions cur).bind (fun row => alget row sym) =
        some (Dest.lst (d0 :: ds)) →
      processFrom a cur (sym :: rest) = processFrom a d0 rest) ∧
    (∀ cur, processFrom a cur [] =
      some (if cur ∈ a.final_states then Outcome.ACEITA else Outcome.REJEITA)) := by
  refine ⟨fun w => rfl, ?_, ?_, ?_, fun cur => rfl⟩
  · intro cur sym rest h
    rw [processFrom, if_neg h]
  · intro cur sym rest h hnone
    rw [processFrom, if_pos h]
    cases hrow : alget a.transitions cur with
    | none => rfl
    | some row =>
      simp only [hrow, Option.some_bind] at hnone
      simp only [hnone]
  · intro cur sym rest d0 ds h hsome
    rw [processFrom, if_pos h]
    cases hrow : alget a.transitions cur with
    | none => simp [hrow] at hsome
    | some row =>
      simp only [hrow, Option.some_bind] at hsome
      simp only [hsome, destFirst, List.head?]

/-- C2 witness at a concrete automaton and word. -/
theorem C2_witness :
    processFrom exC2 "s" ["b"] = some Outcome.INVALIDA ∧
    processFrom exC2 "s" ["a"] = processFrom exC2 "s" [] ∧
    processFrom exC2 "t" ["a"] = some Outcome.REJEITA := by
  refine ⟨(C2_process_scans_word exC2).2.1 "s" "b" [] (by decide), ?_, ?_⟩
  · exact (C2_process_scans_word exC2).2.2.2.1 "s" "a" [] "s" []
      (by decide) (by rfl)
  · exact (C2_process_scans_word exC2).2.2.1 "t" "a" [] (by decide) (by rfl)

/-- C4: the claim says the converter computes, for each worklist entry, the
union of destinations over the members of the denoted subset of original
states.  In the code the worklist holds minted identifiers and
`current.split(',')` is applied to the minted name, not to the canonical key,
so the union is taken over the minted name itself: on `exC4` (initial `s`
with `s -a-> {s,t}`), the denoted set `{s}` has the non-empty union
`{s, t}` under `a`, yet the converter records no transition at all because
`q0` has no transitions in the input. -/
theorem C4_union_over_minted_name :
    (convert_to_dfa exC4).transitions = [("q0", [])] ∧
    unionDests exC4 ["s"] "a" = ["s", "t"] :=
  ⟨rfl, rfl⟩

/-- C5 counterexample: the loader accepts duplicated state names and
duplicated alphabet symbols unchanged; the returned `states` list is not
duplicate-free. -/
theorem C5_counterexample :
    load_automata ["a", "a"] ["s", "s"] [] "s" [] =
      .ok (Automata.mk ["a", "a"] ["s", "s"] [] "s" []) ∧
    ¬ (Automata.mk ["a", "a"] ["s", "s"] [] "s" []).states.Nodup :=
  ⟨rfl, by decide⟩

/-- C5 amended: the loader returns `states` and `alphabet` exactly as given
(no uniqueness check is performed, duplicates are preserved). -/
theorem C5_fields_passed_through (alphabet states fins : List String)
    (init : String) (lines : List (List String)) (a : Automata)
    (h : load_automata alphabet states fins init lines = .ok a) :
    a.states = states ∧ a.alphabet = alphabet := by
  obtain ⟨_, ha, hs, _⟩ := load_ok_inv h
  exact ⟨hs, ha⟩

/-- C5 witness at a concrete successful load. -/
theorem C5_witness :
    (Automata.mk ["a", "a"] ["s", "s"] [] "s" []).states = ["s", "s"] ∧
    (Automata.mk ["a", "a"] ["s", "s"] [] "s" []).alphabet = ["a", "a"] :=
  C5_fields_passed_through ["a", "a"] ["s", "s"] [] "s" []
    (Automata.mk ["a", "a"] ["s", "s"] [] "s" []) (by rfl)

/-- C8 counterexample: a not-yet-processed subset can be enqueued more than
once — after the first iteration on `exC8` the worklist holds the minted
name `q1` twice, refuting "each distinct subset is enqueued at most once"
(the visited check is against `processed_states`, not the canonical-key
mapping). -/
theorem C8_counterexample :
    (convStep exC8 (convInit exC8)).wl = ["q1", "q1"] ∧
    ¬ (convStep exC8 (convInit exC8)).wl.Nodup :=
  ⟨rfl, by decide⟩

/-- C8 amended: for every input automaton the conversion loop terminates —
the computable fuel `convFuel` always suffices to empty the worklist (the
processed-states set prevents re-enqueuing of processed subsets, while a
subset may sit in the worklist multiple times before its first
processing). -/
theorem C8_conversion_terminates (a : Automata) :
    (convLoop a (convFuel a) (convInit a)).wl = [] ∧
    convert_to_dfa a = convFinalize a (convLoop a (convFuel a) (convInit a)) :=
  ⟨convLoop_reaches_empty a, rfl⟩

/-- C3: every Automaton that exists in the system — returned by the loader
or produced by the converter — satisfies the four structural invariants:
initial state in `states`, final states in `states`, transition origins and
destinations in `states`, transition symbols in `alphabet`. -/
theorem C3_all_values_satisfy_invariants :
    (∀ (alphabet states fins : List String) (init : String)
        (lines : List (List String)) (a : Automata),
      load_automata alphabet states fins init lines = .ok a →
      invariantsHold a) ∧
    (∀ a : Automata, invariantsHold (convert_to_dfa a)) :=
  ⟨fun _ _ _ _ _ _ h => load_automata_invariants h,
   fun a => convert_to_dfa_invariants a⟩

/-- C3 witness at a concrete load and a concrete conversion. -/
theorem C3_witness :
    invariantsHold (Automata.mk ["a"] ["s"] ["s"] "s"
      [("s", [("a", Dest.lst ["s"])])]) ∧
    invariantsHold (convert_to_dfa exC1) :=
  ⟨C3_all_values_satisfy_invariants.1 ["a"] ["s"] ["s"] "s" [["s", "a", "s"]]
      (Automata.mk ["a"] ["s"] ["s"] "s" [("s", [("a", Dest.lst ["s"])])])
      (by rfl),
   C3_all_values_satisfy_invariants.2 exC1⟩

/-- C6: the converter never changes the alphabet, and every transition it
records carries exactly one destination state (a single state-name string
per (state, symbol) pair). -/
theorem C6_alphabet_and_single_destination (a : Automata) :
    (convert_to_dfa a).alphabet = a.alphabet ∧
    ∀ (o : String) (row : SMap Dest),
      alget (convert_to_dfa a).transitions o = some row →
      ∀ (sy : String) (d : Dest), alget row sy = some d →
        ∃ nm, d = Dest.str nm ∧ destTargets d = [nm] := by
  refine ⟨rfl, ?_⟩
  intro o row hrow sy d hd
  have htr : (convert_to_dfa a).transitions =
      (convLoop a (convFuel a) (convInit a)).dtr.map
        (fun p => (p.1, p.2.map (fun q => (q.1, Dest.str q.2)))) := rfl
  have hmap := alget_map
    (fun r : SMap String => r.map (fun q => (q.1, Dest.str q.2)))
    (convLoop a (convFuel a) (convInit a)).dtr o
  rw [htr, hmap] at hrow
  cases hget : alget (convLoop a (convFuel a) (convInit a)).dtr o with
  | none =>
    rw [hget] at hrow
    simp at hrow
  | some row0 =>
    rw [hget] at hrow
    simp only [Option.map_some'] at hrow
    obtain rfl := Option.some.inj hrow
    have hmap2 := alget_map Dest.str row0 sy
    rw [hmap2] at hd
    cases hget2 : alget row0 sy with
    | none =>
      rw [hget2] at hd
      simp at hd
    | some nm =>
      rw [hget2] at hd
      simp only [Option.map_some'] at hd
      obtain rfl := Option.some.inj hd
      exact ⟨nm, rfl, rfl⟩

/-- C6 witness at a concrete converted automaton. -/
theorem C6_witness :
    (convert_to_dfa exC10).alphabet = exC10.alphabet ∧
    ∃ nm, Dest.str "q1" = Dest.str nm ∧ destTargets (Dest.str "q1") = [nm] :=
  ⟨(C6_alphabet_and_single_destination exC10).1,
   (C6_alphabet_and_single_destination exC10).2 "q0" [("a", Dest.str "q1")]
     (by rfl) "a" (Dest.str "q1") (by rfl)⟩

/-- C7: given well-formed three-token transition lines, the loader returns
an Automaton exactly when the four structural invariants hold of the
candidate record, and otherwise fails with an error string drawn from the
five ValueError messages.  Each violation case is tied to its own message:
an initial-state violation to the initial message, a final-state violation
(with the initial state valid) to the final message, and — with the earlier
stages clean — an origin violation to the origin message, a symbol
violation to the symbol message and a destination violation to the
destination message; the five messages are pairwise distinct, so every
case is distinguishable.  The Except result means no partially valid
Automaton is ever observable. -/
theorem C7_load_iff_invariants (alphabet states fins : List String)
    (init : String) (lines : List (List String))
    (h3 : ∀ l ∈ lines, l.length = 3) :
    ∃ tr, buildTransitions lines [] = .ok tr ∧
      ((load_automata alphabet states fins init lines =
          .ok (Automata.mk alphabet states fins init tr)) ↔
        invariantsHold (Automata.mk alphabet states fins init tr)) ∧
      (¬ invariantsHold (Automata.mk alphabet states fins init tr) →
        ∃ e, load_automata alphabet states fins init lines = .error e ∧
          (e = "Erro ao ler o arquivo: " ++ initMsg ∨
           e = "Erro ao ler o arquivo: " ++ finalMsg ∨
           e = "Erro ao ler o arquivo: " ++ originMsg ∨
           e = "Erro ao ler o arquivo: " ++ symbolMsg ∨
           e = "Erro ao ler o arquivo: " ++ destMsg)) ∧
      (init ∉ states →
        load_automata alphabet states fins init lines =
          .error ("Erro ao ler o arquivo: " ++ initMsg)) ∧
      (init ∈ states → ¬ (∀ f ∈ fins, f ∈ states) →
        load_automata alphabet states fins init lines =
          .error ("Erro ao ler o arquivo: " ++ finalMsg)) ∧
      (init ∈ states → (∀ f ∈ fins, f ∈ states) →
        (∀ p ∈ tr, ∀ q ∈ p.2, q.1 ∈ alphabet ∧
          ∀ x ∈ destIter q.2, x ∈ states) →
        (∃ p ∈ tr, p.1 ∉ states) →
        load_automata alphabet states fins init lines =
          .error ("Erro ao ler o arquivo: " ++ originMsg)) ∧
      (init ∈ states → (∀ f ∈ fins, f ∈ states) →
        (∀ p ∈ tr, p.1 ∈ states) →
        (∀ p ∈ tr, ∀ q ∈ p.2, ∀ x ∈ destIter q.2, x ∈ states) →
        (∃ p ∈ tr, ∃ q ∈ p.2, q.1 ∉ alphabet) →
        load_automata alphabet states fins init lines =
          .error ("Erro ao ler o arquivo: " ++ symbolMsg)) ∧
      (init ∈ states → (∀ f ∈ fins, f ∈ states) →
        (∀ p ∈ tr, p.1 ∈ states) →
        (∀ p ∈ tr, ∀ q ∈ p.2, q.1 ∈ alphabet) →
        (∃ p ∈ tr, ∃ q ∈ p.2, ∃ x ∈ destIter q.2, x ∉ states) →
        load_automata alphabet states fins init lines =
          .error ("Erro ao ler o arquivo: " ++ destMsg)) ∧
      ([initMsg, finalMsg, originMsg, symbolMsg, destMsg].Nodup) := by
  obtain ⟨tr, hb⟩ := buildTransitions_ok_of_len3 h3 []
  have hlst : allLst tr := buildTransitions_allLst hb (by intro p hp; simp at hp)
  refine ⟨tr, hb, ?_, ?_, fun hi => load_error_of_init hb hi, ?_,
    ?_, ?_, ?_, by decide⟩
  · constructor
    · intro h
      exact load_automata_invariants h
    · rintro ⟨h1, h2, htr⟩
      refine load_ok_of_checks hb h1 (checkFinals_ok_iff.mpr h2)
        (checkOrigins_ok_iff.mpr ?_)
      intro p hp
      obtain ⟨hp1, hp2⟩ := htr p hp
      refine ⟨hp1, ?_⟩
      intro q hq
      obtain ⟨hq1, hq2⟩ := hp2 q hq
      refine ⟨hq1, ?_⟩
      intro x hx
      apply hq2
      rw [← destIter_eq_targets (hlst p hp q hq)]
      exact hx
  · intro hninv
    by_cases hi : init ∈ states
    · cases hf : checkFinals states fins with
      | error e =>
        refine ⟨_, load_error_of_finals hb hi hf, ?_⟩
        rw [checkFinals_error hf]
        tauto
      | ok u =>
        cases u
        cases ho : checkOrigins alphabet states tr with
        | error e =>
          refine ⟨_, load_error_of_origins hb hi hf ho, ?_⟩
          rcases checkOrigins_error ho with h | h | h <;> rw [h] <;> tauto
        | ok u =>
          cases u
          exact absurd
            (load_automata_invariants (load_ok_of_checks hb hi hf ho)) hninv
    · exact ⟨_, load_error_of_init hb hi, Or.inl rfl⟩
  · intro hi hnf
    cases hf : checkFinals states fins with
    | ok u =>
      cases u
      exact absurd (checkFinals_ok_iff.mp hf) hnf
    | error e =>
      have he := checkFinals_error hf
      subst he
      exact load_error_of_finals hb hi hf
  · intro hi hf hrows hbad
    exact load_error_of_origins hb hi (checkFinals_ok_iff.mpr hf)
      (checkOrigins_origin_first hrows hbad)
  · intro hi hf horigs hdests hbad
    exact load_error_of_origins hb hi (checkFinals_ok_iff.mpr hf)
      (checkOrigins_symbol_first horigs hdests hbad)
  · intro hi hf horigs hsyms hbad
    exact load_error_of_origins hb hi (checkFinals_ok_iff.mpr hf)
      (checkOrigins_dest_first horigs hsyms hbad)

/-- C7 witness at a concrete well-formed input. -/
theorem C7_witness :
    ∃ tr, buildTransitions [["s", "a", "s"]] [] = .ok tr ∧
      load_automata ["a"] ["s"] ["s"] "s" [["s", "a", "s"]] =
        .ok (Automata.mk ["a"] ["s"] ["s"] "s" tr) := by
  obtain ⟨tr, hb, hiff, _, _, _, _, _, _, _⟩ :=
    C7_load_iff_invariants ["a"] ["s"] ["s"] "s" [["s", "a", "s"]] (by decide)
  have htr : tr = [("s", [("a", Dest.lst ["s"])])] :=
    Except.ok.inj (hb.symm.trans
      (by rfl : buildTransitions [["s", "a", "s"]] [] =
        .ok [("s", [("a", Dest.lst ["s"])])]))
  subst htr
  refine ⟨_, hb, hiff.mpr ?_⟩
  unfold invariantsHold
  decide

/-- C9: with every stored destination sequence a non-empty list (the shape
the loader produces), the simulator returns an outcome for every word of
every batch — unknown symbols and missing transitions become `INVALIDA` /
`REJEITA`, never an exception — and the conversion loop completes for any
input. -/
theorem C9_simulation_and_conversion_total (a : Automata)
    (hvalid : ∀ p ∈ a.transitions, ∀ q ∈ p.2, ∃ l, q.2 = Dest.lst l ∧ l ≠ []) :
    (∀ w, (processOne a w).isSome) ∧
    (∀ words, (process a words).length = words.length ∧
      ∀ r ∈ process a words, r.isSome) ∧
    (∃ n, (convLoop a n (convInit a)).wl = []) := by
  refine ⟨fun w => processFrom_total hvalid _ w, fun words => ⟨by simp [process], ?_⟩,
    ⟨convFuel a, convLoop_reaches_empty a⟩⟩
  intro r hr
  simp only [process, List.mem_map] at hr
  obtain ⟨w, _, rfl⟩ := hr
  exact processFrom_total hvalid _ w

/-- C9 witness at a concrete valid automaton. -/
theorem C9_witness :
    (processOne exC9 ["a"]).isSome ∧
    (∃ n, (convLoop exC9 n (convInit exC9)).wl = []) := by
  have hvalid : ∀ p ∈ exC9.transitions, ∀ q ∈ p.2,
      ∃ l, q.2 = Dest.lst l ∧ l ≠ [] := by
    intro p hp q hq
    have hp' : p = ("s", [("a", Dest.lst ["s"])]) := by
      simpa [exC9] using hp
    subst hp'
    have hq' : q = ("a", Dest.lst ["s"]) := by simpa using hq
    subst hq'
    exact ⟨["s"], rfl, by simp⟩
  exact ⟨(C9_simulation_and_conversion_total exC9 hvalid).1 ["a"],
    (C9_simulation_and_conversion_total exC9 hvalid).2.2⟩

/-- C10: on a converter-produced automaton the stored destination is a
single string, so the simulator's `[0]` step moves to the one-character
string made of the destination name's first character — not to the
destination state itself whenever the name has more than one character. -/
theorem C10_step_takes_first_character (a : Automata) (q sym nm : String)
    (w : List String) (c : Char) (cs : List Char)
    (hsym : sym ∈ (convert_to_dfa a).alphabet)
    (hrow : (alget (convert_to_dfa a).transitions q).bind
        (fun row => alget row sym) = some (Dest.str nm))
    (hnm : nm.data = c :: cs) :
    processFrom (convert_to_dfa a) q (sym :: w) =
      processFrom (convert_to_dfa a) (String.mk [c]) w ∧
    (cs ≠ [] → String.mk [c] ≠ nm) := by
  constructor
  · rw [processFrom, if_pos hsym]
    cases hr : alget (convert_to_dfa a).transitions q with
    | none =>
      rw [hr] at hrow
      simp at hrow
    | some row =>
      rw [hr] at hrow
      simp only [Option.some_bind] at hrow
      simp only [hrow, destFirst, hnm, List.head?, Option.map_some']
  · intro hcs heq
    have hdata : ([c] : List Char) = c :: cs := by
      have := congrArg String.data heq
      simpa [hnm] using this
    have : cs = [] := by
      simpa using hdata
    exact hcs this

/-- C10 witness: on `convert_to_dfa exC10` the step over `a` from `q0`
continues from the string "q", the first character of the destination name
"q1". -/
theorem C10_witness :
    processFrom (convert_to_dfa exC10) "q0" ["a"] =
      processFrom (convert_to_dfa exC10) (String.mk ['q']) [] ∧
    String.mk ['q'] ≠ "q1" := by
  have h := C10_step_takes_first_character exC10 "q0" "a" "q1" [] 'q' ['1']
    (by decide) (by rfl) (by rfl)
  exact ⟨h.1, h.2 (by decide)⟩

end Automata2024
